import Mathlib

/-!
Verification of the structural diff and reversible-delta engine described in
the design document of this repository.  The repository's source is a notebook
that drives a third-party diff/patch engine; the engine itself (canonical value
model, structural differ, bidirectional delta) is not part of the sources, so
it is modelled here from the specification and the claims are settled against
that model.  The date-serialization boundary (`serialize_service_date`,
`car_from_schema`) is translated from the notebook source.
-/

namespace DiffEngine

/-- Modelled from the spec (§3, Canonical Value Model): a scalar is a kind
together with a literal; kind ∈ {string, integer, float, boolean, date, null}.
Equality is kind-sensitive (string "5" ≠ integer 5).  Float literals are kept
as their literal text, since only kind-plus-literal equality is ever used. -/
inductive Scalar where
  | str (s : String)
  | int (n : Int)
  | float (lit : String)
  | bool (b : Bool)
  | date (iso : String)
  | null
deriving DecidableEq

/-- Modelled from the spec (§3): a CanonicalValue is a scalar, an ordered list,
or an ordered mapping from string keys to values (insertion order preserved). -/
inductive CanonicalValue where
  | scalar (s : Scalar)
  | sequence (items : List CanonicalValue)
  | record (fields : List (String × CanonicalValue))

mutual
/-- Literal (representation-level) equality test on canonical values. -/
def cvBEq : CanonicalValue → CanonicalValue → Bool
  | .scalar s, .scalar t => decide (s = t)
  | .sequence xs, .sequence ys => listBEq xs ys
  | .record fa, .record fb => fieldsBEq fa fb
  | _, _ => false
def listBEq : List CanonicalValue → List CanonicalValue → Bool
  | [], [] => true
  | x :: xs, y :: ys => cvBEq x y && listBEq xs ys
  | _, _ => false
def fieldsBEq : List (String × CanonicalValue) → List (String × CanonicalValue) → Bool
  | [], [] => true
  | (k, v) :: fs, (l, w) :: gs => decide (k = l) && cvBEq v w && fieldsBEq fs gs
  | _, _ => false
end

theorem cvBEq_iff_aux (n : Nat) :
    ∀ a b : CanonicalValue, sizeOf a ≤ n → (cvBEq a b = true ↔ a = b) := by
  induction n with
  | zero =>
    intro a b h
    cases a <;> simp at h
  | succ n ih =>
    have hlist : ∀ xs ys : List CanonicalValue, sizeOf xs ≤ n →
        (listBEq xs ys = true ↔ xs = ys) := by
      intro xs
      induction xs with
      | nil => intro ys _; cases ys <;> simp [listBEq]
      | cons x xs ihx =>
        intro ys h
        cases ys with
        | nil => simp [listBEq]
        | cons y ys =>
          have hx : sizeOf x ≤ n := by simp at h; omega
          have hxs : sizeOf xs ≤ n := by simp at h; omega
          simp [listBEq, ih x y hx, ihx ys hxs]
    have hfields : ∀ fs gs : List (String × CanonicalValue), sizeOf fs ≤ n →
        (fieldsBEq fs gs = true ↔ fs = gs) := by
      intro fs
      induction fs with
      | nil => intro gs _; cases gs <;> simp [fieldsBEq]
      | cons e fs ihf =>
        intro gs h
        obtain ⟨k, v⟩ := e
        cases gs with
        | nil => simp [fieldsBEq]
        | cons e' gs =>
          obtain ⟨l, w⟩ := e'
          have hv : sizeOf v ≤ n := by simp at h; omega
          have hfs : sizeOf fs ≤ n := by simp at h; omega
          simp [fieldsBEq, ih v w hv, ihf gs hfs, and_assoc]
    intro a b h
    cases a with
    | scalar s => cases b <;> simp [cvBEq]
    | sequence xs =>
      cases b <;> simp [cvBEq]
      exact hlist xs _ (by simp at h; omega)
    | record fa =>
      cases b <;> simp [cvBEq]
      exact hfields fa _ (by simp at h; omega)

theorem cvBEq_iff (a b : CanonicalValue) : cvBEq a b = true ↔ a = b :=
  cvBEq_iff_aux (sizeOf a) a b (Nat.le_refl _)

instance : DecidableEq CanonicalValue :=
  fun a b => decidable_of_iff (cvBEq a b = true) (cvBEq_iff a b)

/-- Modelled from the spec (§3): a path step is a record key or a 0-based
sequence index. -/
inductive PathStep where
  | key (name : String)
  | index (i : Nat)
deriving DecidableEq

/-- Modelled from the spec (§3): a path is an ordered sequence of steps. -/
abbrev Path := List PathStep

/-- Modelled from the spec (§3, Operation): a typed operation anchored at a
path.  `itemAdded`/`itemRemoved` carry `some count` exactly when they are
order-insensitive multiset operations anchored at the sequence itself; with
`none` they are record-key or positional sequence operations whose final path
step names the affected location (spec §4.2/§6: the serialized form carries an
optional `count` field for repetition-aware operations). -/
inductive Operation where
  | valueChanged (path : Path) (oldValue newValue : CanonicalValue)
  | itemAdded (path : Path) (value : CanonicalValue) (count : Option Nat)
  | itemRemoved (path : Path) (value : CanonicalValue) (count : Option Nat)
deriving DecidableEq

/-- Modelled from the spec (§3): a ChangeSet is an ordered list of operations. -/
abbrev ChangeSet := List Operation

/-! ### Association-list primitives for records -/

/-- First value stored under key `k`, if any. -/
def lookupKey : List (String × CanonicalValue) → String → Option CanonicalValue
  | [], _ => none
  | (k', v) :: fs, k => if k' = k then some v else lookupKey fs k

/-- Whether a key is present. -/
def hasKey (fs : List (String × CanonicalValue)) (k : String) : Bool :=
  (lookupKey fs k).isSome

/-- Replace the value stored under key `k` (first occurrence), keeping order. -/
def setKey : List (String × CanonicalValue) → String → CanonicalValue →
    List (String × CanonicalValue)
  | [], _, _ => []
  | (k', v) :: fs, k, w => if k' = k then (k', w) :: fs else (k', v) :: setKey fs k w

/-- Remove the entry stored under key `k` (first occurrence), keeping order. -/
def removeKey : List (String × CanonicalValue) → String →
    List (String × CanonicalValue)
  | [], _ => []
  | (k', v) :: fs, k => if k' = k then fs else (k', v) :: removeKey fs k

/-- Keys are pairwise distinct (the record really is a mapping, spec §3). -/
def nodupKeys : List (String × CanonicalValue) → Bool
  | [] => true
  | (k, _) :: fs => !hasKey fs k && nodupKeys fs

/-! ### Positional list primitives for sequences -/

/-- Insert at a 0-based index, shifting later elements (spec §4.3). -/
def insIdx : List CanonicalValue → Nat → CanonicalValue → List CanonicalValue
  | xs, 0, x => x :: xs
  | [], _ + 1, _ => []
  | y :: ys, n + 1, x => y :: insIdx ys n x

/-- Delete the element at a 0-based index, shifting later elements. -/
def delIdx : List CanonicalValue → Nat → List CanonicalValue
  | [], _ => []
  | _ :: ys, 0 => ys
  | y :: ys, n + 1 => y :: delIdx ys n

/-- Replace the element at a 0-based index. -/
def setIdx : List CanonicalValue → Nat → CanonicalValue → List CanonicalValue
  | [], _, _ => []
  | _ :: ys, 0, x => x :: ys
  | y :: ys, n + 1, x => y :: setIdx ys n x

mutual
/-- Well-formedness: every record in the tree is a genuine mapping (pairwise
distinct keys).  This is the representation invariant of the spec's `Record`
("ordered mapping from string key to CanonicalValue", §3). -/
def WFv : CanonicalValue → Bool
  | .scalar _ => true
  | .sequence xs => WFlist xs
  | .record fs => nodupKeys fs && WFfields fs
def WFlist : List CanonicalValue → Bool
  | [] => true
  | x :: xs => WFv x && WFlist xs
def WFfields : List (String × CanonicalValue) → Bool
  | [] => true
  | (_, v) :: fs => WFv v && WFfields fs
end

/-- `sizeOf` bound for values reached through a key lookup (termination). -/
theorem lookupKey_sizeOf :
    ∀ (fs : List (String × CanonicalValue)) (k : String) (v : CanonicalValue),
      lookupKey fs k = some v → sizeOf v < sizeOf fs := by
  intro fs
  induction fs with
  | nil => intro k v h; simp [lookupKey] at h
  | cons e fs ih =>
    intro k v h
    obtain ⟨k', w⟩ := e
    by_cases hk : k' = k
    · simp [lookupKey, hk] at h
      subst h
      simp
      omega
    · simp [lookupKey, hk] at h
      have := ih k v h
      simp
      omega

mutual
/-- Modelled from the spec (§3 invariant): structural equality between
canonical values — kind-sensitive on scalars, positional on sequences, and
key-based on records, where insertion order of record keys is *not*
semantically significant. -/
def cvEquiv (a b : CanonicalValue) : Bool :=
  match a, b with
  | .scalar s, .scalar t => decide (s = t)
  | .sequence xs, .sequence ys => seqEquiv xs ys
  | .record fa, .record fb =>
      decide (fa.length = fb.length) && recLe fa fa fb && recLe fb fa fb
  | _, _ => false
termination_by (sizeOf a + sizeOf b, 0)
decreasing_by
  · apply Prod.Lex.left; simp; omega
  · apply Prod.Lex.left; simp; omega
  · apply Prod.Lex.left; simp; omega
/-- Pointwise structural equality of sequences (index-aligned, spec §3). -/
def seqEquiv (xs ys : List CanonicalValue) : Bool :=
  match xs, ys with
  | [], [] => true
  | x :: xs, y :: ys => cvEquiv x y && seqEquiv xs ys
  | _, _ => false
termination_by (sizeOf xs + sizeOf ys, 0)
decreasing_by
  · apply Prod.Lex.left; simp; omega
  · apply Prod.Lex.left; simp; omega
/-- `recLe l fa fb` checks that every key listed in `l` is present in both
`fa` and `fb` with structurally equal values. -/
def recLe (l fa fb : List (String × CanonicalValue)) : Bool :=
  match l with
  | [] => true
  | (k, _) :: rest =>
      (match hva : lookupKey fa k, hvb : lookupKey fb k with
       | some v, some w => cvEquiv v w
       | _, _ => false) && recLe rest fa fb
termination_by (sizeOf fa + sizeOf fb, sizeOf l)
decreasing_by
  · apply Prod.Lex.left
    have h1 := lookupKey_sizeOf fa k v hva
    have h2 := lookupKey_sizeOf fb k w hvb
    omega
  · apply Prod.Lex.right
    simp
end

/-- Multiset count of `x` in a list, using the spec's structural equality
(§4.2: "compute multiset (value → count) … using structural equality as the
key"). -/
def countE (x : CanonicalValue) (l : List CanonicalValue) : Nat :=
  l.countP (fun y => cvEquiv x y)

/-- Distinct representatives of a list under structural equality, in order of
first occurrence. -/
def firstReprs (l : List CanonicalValue) : List CanonicalValue :=
  l.foldl (fun acc x => if acc.any (fun r => cvEquiv r x) then acc else acc ++ [x]) []

/-! ### The structural differ (spec §4.2) -/

/-- Prefix an operation's path (`diff` accumulates paths when it returns from
a recursive comparison). -/
def prependOp (p : Path) : Operation → Operation
  | .valueChanged q o n => .valueChanged (p ++ q) o n
  | .itemAdded q v c => .itemAdded (p ++ q) v c
  | .itemRemoved q v c => .itemRemoved (p ++ q) v c

/-- Modelled from the spec (§4.2, order-insensitive mode): compare two
sequences as multisets keyed by structural equality; for each distinct value
report one `itemAdded`/`itemRemoved` carrying the repetition count, anchored
at the sequence itself.  Distinct values are visited in order of first
occurrence in `a ++ b`, making the output deterministic. -/
def diffUnordered (xs ys : List CanonicalValue) : List Operation :=
  (firstReprs (xs ++ ys)).flatMap (fun v =>
    let ca := countE v xs
    let cb := countE v ys
    if ca < cb then [.itemAdded [] v (some (cb - ca))]
    else if cb < ca then [.itemRemoved [] v (some (ca - cb))]
    else [])

/-- Keys present only in `fb` (the "after" record) produce `itemAdded`
operations, in `fb`'s order (spec §4.2). -/
def diffRecAdded (fa fb : List (String × CanonicalValue)) : List Operation :=
  fb.filterMap (fun e =>
    if hasKey fa e.1 then none else some (.itemAdded [.key e.1] e.2 none))

mutual
/-- Modelled from the spec (§4.2): the recursive structural differ.
`ins = true` selects the order-insensitive sequence mode.  Scalars compare by
kind+literal; values of different structural kinds produce a single
`valueChanged` carrying the whole subtrees; records compare key-wise (keys of
`a` first, then keys only in `b`); sequences compare positionally in
order-sensitive mode.  Surplus trailing elements of a longer `a` are emitted
in descending index order, so that sequentially applying the operations keeps
index shifts consistent (the spec's ascending-order note is about
insertions). -/
def diff (ins : Bool) (a b : CanonicalValue) : List Operation :=
  match a, b with
  | .scalar s, .scalar t =>
      if s = t then [] else [.valueChanged [] (.scalar s) (.scalar t)]
  | .sequence xs, .sequence ys =>
      if ins then diffUnordered xs ys else diffSeq ins 0 xs ys
  | .record fa, .record fb => diffRecA ins fa fb ++ diffRecAdded fa fb
  | a, b => [.valueChanged [] a b]
termination_by sizeOf a + sizeOf b
decreasing_by
  all_goals simp <;> omega
/-- Order-sensitive sequence walk from index `i` (spec §4.2): recurse at
indices present in both, report positional `itemRemoved`/`itemAdded` for the
surplus of the longer side. -/
def diffSeq (ins : Bool) (i : Nat) (xs ys : List CanonicalValue) :
    List Operation :=
  match xs, ys with
  | [], [] => []
  | x :: xs, [] => diffSeq ins (i + 1) xs [] ++ [.itemRemoved [.index i] x none]
  | [], y :: ys => .itemAdded [.index i] y none :: diffSeq ins (i + 1) [] ys
  | x :: xs, y :: ys =>
      (diff ins x y).map (prependOp [.index i]) ++ diffSeq ins (i + 1) xs ys
termination_by sizeOf xs + sizeOf ys
decreasing_by
  all_goals simp <;> omega
/-- Record comparison over the keys of `a` in `a`'s order (spec §4.2): keys
present in both recurse; keys only in `a` are reported removed. -/
def diffRecA (ins : Bool) (todo fb : List (String × CanonicalValue)) :
    List Operation :=
  match todo with
  | [] => []
  | (k, va) :: rest =>
      (match hvb : lookupKey fb k with
       | some vb => (diff ins va vb).map (prependOp [.key k])
       | none => [.itemRemoved [.key k] va none]) ++ diffRecA ins rest fb
termination_by sizeOf todo + sizeOf fb
decreasing_by
  · have := lookupKey_sizeOf fb k vb hvb
    simp <;> omega
  · simp <;> omega
end

/-! ### The bidirectional delta (spec §4.3) -/

/-- Modelled from the spec (§7): `conflict` models `ConflictError` (a
precondition on the current value failed), `pathError` models `PathError` (the
operation's path does not exist in the target). -/
inductive ApplyError where
  | conflict
  | pathError
deriving DecidableEq

deriving instance DecidableEq for Except

/-- Look up the value at a path. -/
def getAt (v : CanonicalValue) (p : Path) : Option CanonicalValue :=
  match p with
  | [] => some v
  | .key k :: p' =>
      match v with
      | .record fs =>
          match lookupKey fs k with
          | some w => getAt w p'
          | none => none
      | _ => none
  | .index i :: p' =>
      match v with
      | .sequence xs =>
          match xs[i]? with
          | some w => getAt w p'
          | none => none
      | _ => none

/-- Modelled from the spec (§4.3, `ValueChanged`): navigate to `p`; the
current value there must equal the recorded old value (optimistic
precondition, `ConflictError` otherwise); replace it with the new value.
A missing path is a `PathError` (§7). -/
def replaceAt (v : CanonicalValue) (p : Path) (o n : CanonicalValue) :
    Except ApplyError CanonicalValue :=
  match p, v with
  | [], v => if v = o then .ok n else .error .conflict
  | .key k :: p', .record fs =>
      match lookupKey fs k with
      | some u => (replaceAt u p' o n).map (fun u' => .record (setKey fs k u'))
      | none => .error .pathError
  | .index i :: p', .sequence xs =>
      match xs[i]? with
      | some u => (replaceAt u p' o n).map (fun u' => .sequence (setIdx xs i u'))
      | none => .error .pathError
  | _, _ => .error .pathError

/-- Fresh container created when an `itemAdded` descends into a missing key
(spec §4.3: "creating the parent Record/Sequence container … if absent"); its
kind is dictated by the next step to take. -/
def freshContainer (p : Path) (cnt : Option Nat) : CanonicalValue :=
  match p, cnt with
  | [], _ => .sequence []
  | .key _ :: _, _ => .record []
  | .index _ :: _, _ => .sequence []

/-- Modelled from the spec (§4.3, `ItemAdded`): insert `x` at `p`.  A record
key insertion requires the key to be absent (`ConflictError` otherwise) and
appends the entry, a positional sequence insertion shifts later elements, and
a counted (order-insensitive) insertion appends `n` copies to the sequence at
`p`.  A record key missing on the way down creates the parent container
(spec §4.3: "creating the parent Record/Sequence container … if absent"). -/
def insertAt (v : CanonicalValue) (p : Path)
    (x : CanonicalValue) (cnt : Option Nat) : Except ApplyError CanonicalValue :=
  match cnt, p, v with
  | some cn, [], .sequence xs => .ok (.sequence (xs ++ List.replicate cn x))
  | none, [.key k], .record fs =>
      if hasKey fs k then .error .conflict else .ok (.record (fs ++ [(k, x)]))
  | none, [.index i], .sequence xs =>
      if i ≤ xs.length then .ok (.sequence (insIdx xs i x)) else .error .pathError
  | cnt, .key k :: p', .record fs =>
      match lookupKey fs k with
      | some u => (insertAt u p' x cnt).map (fun u' => .record (setKey fs k u'))
      | none =>
          (insertAt (freshContainer p' cnt) p' x cnt).map
            (fun u' => .record (fs ++ [(k, u')]))
  | cnt, .index i :: p', .sequence xs =>
      match xs[i]? with
      | some u => (insertAt u p' x cnt).map (fun u' => .sequence (setIdx xs i u'))
      | none => .error .pathError
  | _, _, _ => .error .pathError

/-- Remove the first `n` elements structurally equal to `x`. -/
def removeFirstCopies : List CanonicalValue → CanonicalValue → Nat →
    List CanonicalValue
  | xs, _, 0 => xs
  | [], _, _ + 1 => []
  | y :: ys, x, n + 1 =>
      if cvEquiv x y then removeFirstCopies ys x n
      else y :: removeFirstCopies ys x (n + 1)

/-- Remove the last `n` elements structurally equal to `x` (the counted
inverse of appending `n` copies). -/
def removeLastCopies (xs : List CanonicalValue) (x : CanonicalValue) (n : Nat) :
    List CanonicalValue :=
  (removeFirstCopies xs.reverse x n).reverse

/-- Modelled from the spec (§4.3, `ItemRemoved`): the current value at `p`
must equal the recorded value (`ConflictError` otherwise); remove it.  A
counted (order-insensitive) removal requires at least `n` structurally equal
copies in the sequence at `p` and removes the last `n` of them. -/
def removeAt (v : CanonicalValue) (p : Path) (x : CanonicalValue)
    (cnt : Option Nat) : Except ApplyError CanonicalValue :=
  match cnt, p, v with
  | some cn, [], .sequence xs =>
      if cn ≤ countE x xs then .ok (.sequence (removeLastCopies xs x cn))
      else .error .conflict
  | none, [.key k], .record fs =>
      match lookupKey fs k with
      | some u =>
          if u = x then .ok (.record (removeKey fs k)) else .error .conflict
      | none => .error .pathError
  | none, [.index i], .sequence xs =>
      match xs[i]? with
      | some u =>
          if u = x then .ok (.sequence (delIdx xs i)) else .error .conflict
      | none => .error .pathError
  | cnt, .key k :: p', .record fs =>
      match lookupKey fs k with
      | some u => (removeAt u p' x cnt).map (fun u' => .record (setKey fs k u'))
      | none => .error .pathError
  | cnt, .index i :: p', .sequence xs =>
      match xs[i]? with
      | some u => (removeAt u p' x cnt).map (fun u' => .sequence (setIdx xs i u'))
      | none => .error .pathError
  | _, _, _ => .error .pathError

/-- Apply a single operation in the forward (A→B) direction (spec §4.3). -/
def applyOp (v : CanonicalValue) :
    Operation → Except ApplyError CanonicalValue
  | .valueChanged p o n => replaceAt v p o n
  | .itemAdded p x c => insertAt v p x c
  | .itemRemoved p x c => removeAt v p x c

/-- Modelled from the spec (§4.3, `applyInverse`): swap the role of each
operation — `valueChanged` checks the new value and restores the old,
`itemAdded` becomes a removal, `itemRemoved` becomes an insertion. -/
def invertOp : Operation → Operation
  | .valueChanged p o n => .valueChanged p n o
  | .itemAdded p x c => .itemRemoved p x c
  | .itemRemoved p x c => .itemAdded p x c

/-- Modelled from the spec (§4.3): a Delta wraps a ChangeSet
(`Delta::from(changeSet)`). -/
structure Delta where
  changeSet : ChangeSet

/-- Modelled from the spec (§4.3, `apply`): interpret the wrapped ChangeSet as
A→B, applying the operations in ChangeSet order; either every operation
succeeds and a new complete tree is returned, or the first failing operation's
error is surfaced (no retries, §7). -/
def Delta.apply (d : Delta) (v : CanonicalValue) :
    Except ApplyError CanonicalValue :=
  d.changeSet.foldlM applyOp v

/-- Modelled from the spec (§4.3, `applyInverse`): identical traversal with
each operation's role swapped; operations are undone in reverse ChangeSet
order so that sequence index shifts cancel the forward ones. -/
def Delta.applyInverse (d : Delta) (v : CanonicalValue) :
    Except ApplyError CanonicalValue :=
  (d.changeSet.reverse.map invertOp).foldlM applyOp v

/-! ### Basic lemmas on the record and well-formedness primitives -/

theorem hasKey_of_mem {fs : List (String × CanonicalValue)} {k : String}
    {v : CanonicalValue} (h : (k, v) ∈ fs) : hasKey fs k = true := by
  induction fs with
  | nil => simp at h
  | cons e fs ih =>
    obtain ⟨k', w⟩ := e
    rcases List.mem_cons.mp h with h | h
    · obtain ⟨rfl, rfl⟩ := Prod.mk.injEq .. ▸ h
      simp [hasKey, lookupKey]
    · by_cases hk : k' = k <;> simp [hasKey, lookupKey, hk] at ih ⊢
      exact ih h

theorem mem_of_lookupKey {fs : List (String × CanonicalValue)} {k : String}
    {v : CanonicalValue} (h : lookupKey fs k = some v) : (k, v) ∈ fs := by
  induction fs with
  | nil => simp [lookupKey] at h
  | cons e fs ih =>
    obtain ⟨k', w⟩ := e
    by_cases hk : k' = k
    · subst hk
      simp [lookupKey] at h
      simp [h]
    · simp [lookupKey, hk] at h
      simp [ih h]

theorem lookupKey_of_mem_nodup {fs : List (String × CanonicalValue)}
    {k : String} {v : CanonicalValue} (hnd : nodupKeys fs = true)
    (h : (k, v) ∈ fs) : lookupKey fs k = some v := by
  induction fs with
  | nil => simp at h
  | cons e fs ih =>
    obtain ⟨k', w⟩ := e
    simp [nodupKeys] at hnd
    rcases List.mem_cons.mp h with h | h
    · obtain ⟨rfl, rfl⟩ := Prod.mk.injEq .. ▸ h
      simp [lookupKey]
    · by_cases hk : k' = k
      · subst hk
        exact absurd (hasKey_of_mem h) (by simp [hnd.1])
      · simp [lookupKey, hk]
        exact ih hnd.2 h

theorem WFlist_mem {xs : List CanonicalValue} {x : CanonicalValue}
    (hwf : WFlist xs = true) (h : x ∈ xs) : WFv x = true := by
  induction xs with
  | nil => simp at h
  | cons y ys ih =>
    simp [WFlist] at hwf
    rcases List.mem_cons.mp h with rfl | h
    · exact hwf.1
    · exact ih hwf.2 h

theorem WFfields_mem {fs : List (String × CanonicalValue)} {k : String}
    {v : CanonicalValue} (hwf : WFfields fs = true) (h : (k, v) ∈ fs) :
    WFv v = true := by
  induction fs with
  | nil => simp at h
  | cons e fs ih =>
    obtain ⟨k', w⟩ := e
    simp [WFfields] at hwf
    rcases List.mem_cons.mp h with h | h
    · obtain ⟨rfl, rfl⟩ := Prod.mk.injEq .. ▸ h
      exact hwf.1
    · exact ih hwf.2 h

/-! ### `diff(A, A)` is empty (spec §8, "Empty diff") -/

theorem diffUnordered_self (xs : List CanonicalValue) :
    diffUnordered xs xs = [] := by
  rw [diffUnordered, List.flatMap_eq_nil_iff]
  intro v _
  simp

theorem diffSeq_self {ins : Bool} {xs : List CanonicalValue}
    (ih : ∀ x ∈ xs, diff ins x x = []) :
    ∀ i, diffSeq ins i xs xs = [] := by
  induction xs with
  | nil => intro i; rw [diffSeq]
  | cons x xs ihx =>
    intro i
    rw [diffSeq, ih x (by simp)]
    simp
    exact ihx (fun y hy => ih y (by simp [hy])) (i + 1)

theorem diffRecAdded_self (fs : List (String × CanonicalValue)) :
    diffRecAdded fs fs = [] := by
  rw [diffRecAdded, List.filterMap_eq_nil_iff]
  intro e he
  obtain ⟨k, v⟩ := e
  simp [hasKey_of_mem he]

theorem diffRecA_self {ins : Bool} {fa : List (String × CanonicalValue)} :
    ∀ todo, (∀ e ∈ todo, lookupKey fa e.1 = some e.2) →
      (∀ e ∈ todo, diff ins e.2 e.2 = []) → diffRecA ins todo fa = [] := by
  intro todo
  induction todo with
  | nil => intro _ _; rw [diffRecA]
  | cons e rest ih =>
    intro hlook hdiff
    obtain ⟨k, va⟩ := e
    have hl : lookupKey fa k = some va := by simpa using hlook (k, va) (by simp)
    have hd : diff ins va va = [] := by simpa using hdiff (k, va) (by simp)
    rw [diffRecA, hl]
    simp [hd]
    exact ih (fun e he => hlook e (by simp [he])) (fun e he => hdiff e (by simp [he]))

theorem diff_self_aux (n : Nat) :
    ∀ a : CanonicalValue, sizeOf a ≤ n → ∀ ins : Bool, WFv a = true →
      diff ins a a = [] := by
  induction n with
  | zero => intro a h; cases a <;> simp at h
  | succ n ih =>
    intro a h ins hwf
    cases a with
    | scalar s => rw [diff]; simp
    | sequence xs =>
      have hsz : sizeOf xs ≤ n := by simp at h; omega
      rw [WFv] at hwf
      rw [diff]
      cases ins with
      | true => simpa using diffUnordered_self xs
      | false =>
        simp only [Bool.false_eq_true, if_false]
        exact diffSeq_self
          (fun x hx => ih x (by have := List.sizeOf_lt_of_mem hx; omega)
            false (WFlist_mem hwf hx)) 0
    | record fs =>
      have hsz : sizeOf fs ≤ n := by simp at h; omega
      rw [WFv] at hwf
      simp at hwf
      rw [diff, diffRecAdded_self fs]
      simp
      apply diffRecA_self
      · intro e he
        exact lookupKey_of_mem_nodup hwf.1 (by simpa using he)
      · intro e he
        obtain ⟨k1, v1⟩ := e
        have hszv : sizeOf v1 ≤ n := by
          have h1 := List.sizeOf_lt_of_mem he
          simp at h1
          omega
        exact ih v1 hszv ins (WFfields_mem hwf.2 he)

/-! ### The motivating snapshots (translated from the notebook's
`car_dump_v1`/`car_dump_v2` outputs) -/

/-- One serialized service record of the notebook's car, with the given
service date (kind `date`, ISO literal). -/
def serviceRecordCV (d : String) : CanonicalValue :=
  .record [("id", .scalar (.int 1)),
           ("service_date", .scalar (.date d)),
           ("description", .scalar (.str "Oil change")),
           ("service_manager", .record [("id", .scalar (.int 1)),
                                        ("name", .scalar (.str "John Doe"))])]

/-- Shape of the notebook's serialized car snapshot
(`CarSchema.model_dump()`): id, license plate, model and the list of service
records. -/
def carDump (i : Int) (plate mdl : String) (records : List CanonicalValue) :
    CanonicalValue :=
  .record [("id", .scalar (.int i)),
           ("license_plate", .scalar (.str plate)),
           ("model", .scalar (.str mdl)),
           ("service_records", .sequence records)]

/-- The notebook's first snapshot (service date 2025-05-05). -/
def carDumpV1 : CanonicalValue :=
  carDump 1 "ABC123" "Toyota Corolla" [serviceRecordCV "2025-05-05"]

/-- The notebook's second snapshot (service date changed to 2027-07-07). -/
def carDumpV2 : CanonicalValue :=
  carDump 1 "ABC123" "Toyota Corolla" [serviceRecordCV "2027-07-07"]

/-! ### Claims C3, C5, C6, C7, C10 -/

/-- C3: for the motivating car snapshots A (service date "2025-05-05") and B
(same snapshot with the date "2027-07-07"), `diff(A, B)` consists of exactly
one `ValueChanged` operation at the path addressing the date field of the
first service record, carrying old value "2025-05-05" and new value
"2027-07-07", and `applyInverse` of that diff's Delta on B returns A
exactly. -/
theorem c3_concrete_scenario :
    diff false carDumpV1 carDumpV2 =
      [.valueChanged [.key "service_records", .index 0, .key "service_date"]
        (.scalar (.date "2025-05-05")) (.scalar (.date "2027-07-07"))] ∧
    Delta.applyInverse ⟨diff false carDumpV1 carDumpV2⟩ carDumpV2 =
      .ok carDumpV1 := by
  have hd : diff false carDumpV1 carDumpV2 =
      [.valueChanged [.key "service_records", .index 0, .key "service_date"]
        (.scalar (.date "2025-05-05")) (.scalar (.date "2027-07-07"))] := by
    simp [carDumpV1, carDumpV2, carDump, serviceRecordCV, diff, diffSeq,
      diffRecA, diffRecAdded, lookupKey, hasKey, prependOp]
  refine ⟨hd, ?_⟩
  rw [hd]
  decide

/-- C5: for every CanonicalValue A (in either comparison mode), `diff(A, A)`
yields an empty ChangeSet. -/
theorem c5_empty_diff (ins : Bool) (a : CanonicalValue) (h : WFv a = true) :
    diff ins a a = [] :=
  diff_self_aux (sizeOf a) a (Nat.le_refl _) ins h

/-- Witness for C5 at the notebook's first snapshot. -/
theorem c5_empty_diff_witness :
    WFv carDumpV1 = true ∧ diff true carDumpV1 carDumpV1 = [] :=
  ⟨by decide, c5_empty_diff true carDumpV1 (by decide)⟩

/-- C6: diffing `[1,1,2]` against `[1,2,2]` in order-insensitive mode yields
exactly two operations: one `ItemRemoved` of value 1 with repetition count 1
and one `ItemAdded` of value 2 with repetition count 1 — each surplus value
reported once with a count, not once per duplicate occurrence. -/
theorem c6_order_insensitive_repetition :
    diff true (.sequence [.scalar (.int 1), .scalar (.int 1), .scalar (.int 2)])
      (.sequence [.scalar (.int 1), .scalar (.int 2), .scalar (.int 2)]) =
      [.itemRemoved [] (.scalar (.int 1)) (some 1),
       .itemAdded [] (.scalar (.int 2)) (some 1)] := by
  simp [diff, diffUnordered, firstReprs, countE, cvEquiv, List.countP,
    List.countP.go]

/-- C7: in order-insensitive mode the differ never recurses into sequence
elements: every operation produced for two sequences is an `ItemAdded` or
`ItemRemoved` of a whole element, anchored at the sequence itself (empty
relative path) and carrying a repetition count — never a `ValueChanged` at a
path inside a list element. -/
theorem c7_no_element_recursion (xs ys : List CanonicalValue) (op : Operation)
    (hop : op ∈ diff true (.sequence xs) (.sequence ys)) :
    ∃ v cn, op = .itemAdded [] v (some cn) ∨ op = .itemRemoved [] v (some cn) := by
  have hd : diff true (.sequence xs) (.sequence ys) = diffUnordered xs ys := by
    rw [diff]
    simp
  rw [hd, diffUnordered] at hop
  rcases List.mem_flatMap.mp hop with ⟨v, hv, hmem⟩
  by_cases h1 : countE v xs < countE v ys
  · simp only [h1, if_true, List.mem_singleton] at hmem
    exact ⟨v, countE v ys - countE v xs, Or.inl hmem⟩
  · by_cases h2 : countE v ys < countE v xs
    · simp only [h1, h2, if_false, if_true, List.mem_singleton] at hmem
      exact ⟨v, countE v xs - countE v ys, Or.inr hmem⟩
    · simp [h1, h2] at hmem

/-- Witness for C7 on the lists of the C6 scenario. -/
theorem c7_no_element_recursion_witness :
    ∃ v cn, (Operation.itemRemoved [] (.scalar (.int 1)) (some 1)) =
        .itemAdded [] v (some cn) ∨
      (Operation.itemRemoved [] (.scalar (.int 1)) (some 1)) =
        .itemRemoved [] v (some cn) :=
  c7_no_element_recursion
    [.scalar (.int 1), .scalar (.int 1), .scalar (.int 2)]
    [.scalar (.int 1), .scalar (.int 2), .scalar (.int 2)] _
    (by simp [diff, diffUnordered, firstReprs, countE, cvEquiv, List.countP,
      List.countP.go])

/-- Sequences with equal multisets (structural-equality counts) produce no
order-insensitive operations. -/
theorem diffUnordered_of_count_eq {xs ys : List CanonicalValue}
    (h : ∀ v, countE v xs = countE v ys) : diffUnordered xs ys = [] := by
  rw [diffUnordered, List.flatMap_eq_nil_iff]
  intro v _
  simp [h v]

/-- C10: the notebook's diff invocation fixes order-insensitive comparison
(`ignore_order=True, report_repetition=True`); for any two car snapshot
dictionaries whose `service_records` lists contain the same elements with the
same multiplicities (counted by structural equality), the computed diff is
empty — a pure reordering produces no operations to record in the historic
change log. -/
theorem c10_reordering_invisible (i : Int) (plate mdl : String)
    (xs ys : List CanonicalValue) (h : ∀ v, countE v xs = countE v ys) :
    diff true (carDump i plate mdl xs) (carDump i plate mdl ys) = [] := by
  simp [carDump, diff, diffRecA, diffRecAdded, lookupKey, hasKey,
    diffUnordered_of_count_eq h]

/-- Witness for C10: swapping the two service records of a snapshot is not
recorded. -/
theorem c10_reordering_invisible_witness :
    (∀ v, countE v [serviceRecordCV "2025-05-05", serviceRecordCV "2027-07-07"] =
      countE v [serviceRecordCV "2027-07-07", serviceRecordCV "2025-05-05"]) ∧
    diff true
      (carDump 1 "ABC123" "Toyota Corolla"
        [serviceRecordCV "2025-05-05", serviceRecordCV "2027-07-07"])
      (carDump 1 "ABC123" "Toyota Corolla"
        [serviceRecordCV "2027-07-07", serviceRecordCV "2025-05-05"]) = [] := by
  have h : ∀ v : CanonicalValue,
      countE v [serviceRecordCV "2025-05-05", serviceRecordCV "2027-07-07"] =
      countE v [serviceRecordCV "2027-07-07", serviceRecordCV "2025-05-05"] := by
    intro v
    simp [countE, List.countP_cons]
    omega
  exact ⟨h, c10_reordering_invisible 1 "ABC123" "Toyota Corolla" _ _ h⟩

/-! ### The date boundary (translated from the notebook source, §4.1)

`ServiceRecordSchema.serialize_service_date` serializes the ORM's
`datetime.date` with `service_date.isoformat()`, and
`CarSchema.car_from_schema` parses it back with
`date.fromisoformat(sr_data['service_date'])`.  `datetime.date` itself is
Python standard library; it is modelled here by its documented behavior on
calendar dates (years 1..9999, so `isoformat` is the fixed-width, zero-padded
`YYYY-MM-DD`). -/

/-- A calendar date as handled by the ORM layer (`datetime.date`). -/
structure DomainDate where
  year : Nat
  month : Nat
  day : Nat
deriving DecidableEq

/-- The values `datetime.date` can hold: year 1..9999, month 1..12,
day 1..31. -/
def ValidDomainDate (d : DomainDate) : Prop :=
  1 ≤ d.year ∧ d.year ≤ 9999 ∧ 1 ≤ d.month ∧ d.month ≤ 12 ∧
    1 ≤ d.day ∧ d.day ≤ 31

/-- Decimal digit character (`0`..`9` for values below ten). -/
def digitChar (n : Nat) : Char :=
  Nat.digitChar (n % 10)

/-- Numeric value of a decimal digit character, `none` for anything else. -/
def digitVal (c : Char) : Option Nat :=
  if c.isDigit then some (c.toNat - Char.toNat '0') else none

/-- Translated from the notebook's `serialize_service_date` field serializer:
`service_date.isoformat()` — the ISO-8601 calendar-date string `YYYY-MM-DD`,
zero-padded (Python years are at most 9999, so the year is four digits). -/
def serialize_service_date (d : DomainDate) : String :=
  ⟨[digitChar (d.year / 1000 % 10), digitChar (d.year / 100 % 10),
    digitChar (d.year / 10 % 10), digitChar (d.year % 10), '-',
    digitChar (d.month / 10 % 10), digitChar (d.month % 10), '-',
    digitChar (d.day / 10 % 10), digitChar (d.day % 10)]⟩

/-- Shape check: the string is exactly `YYYY-MM-DD` (four digits, dash, two
digits, dash, two digits). -/
def isIsoDateFormat (s : String) : Bool :=
  match s.data with
  | [y1, y2, y3, y4, c1, m1, m2, c2, d1, d2] =>
      (digitVal y1).isSome && (digitVal y2).isSome && (digitVal y3).isSome &&
      (digitVal y4).isSome && decide (c1 = '-') && (digitVal m1).isSome &&
      (digitVal m2).isSome && decide (c2 = '-') && (digitVal d1).isSome &&
      (digitVal d2).isSome
  | _ => false

/-- Translated from `car_from_schema`'s
`date.fromisoformat(sr_data['service_date'])`: parse a `YYYY-MM-DD` string
back to a date; anything that is not a valid ISO calendar date raises
`ValueError` in Python, modelled as `none`. -/
def date_fromisoformat (s : String) : Option DomainDate :=
  match s.data with
  | [y1, y2, y3, y4, '-', m1, m2, '-', d1, d2] =>
      match digitVal y1, digitVal y2, digitVal y3, digitVal y4,
            digitVal m1, digitVal m2, digitVal d1, digitVal d2 with
      | some a, some b, some c, some e, some f, some g, some h1, some h2 =>
          let y := a * 1000 + b * 100 + c * 10 + e
          let mo := f * 10 + g
          let da := h1 * 10 + h2
          if 1 ≤ y ∧ 1 ≤ mo ∧ mo ≤ 12 ∧ 1 ≤ da ∧ da ≤ 31 then
            some ⟨y, mo, da⟩
          else none
      | _, _, _, _, _, _, _, _ => none
  | _ => none

theorem digitVal_digitChar {n : Nat} (h : n < 10) :
    digitVal (digitChar n) = some n := by
  interval_cases n <;> decide

theorem digitVal_digitChar_mod (n : Nat) :
    digitVal (digitChar (n % 10)) = some (n % 10) :=
  digitVal_digitChar (Nat.mod_lt _ (by norm_num))

/-- C9: for every valid domain date, the snapshot serialization represents it
as an ISO-8601 calendar-date string `YYYY-MM-DD`, and the inverse conversion
(`date.fromisoformat` in `car_from_schema`) parses that string back to the
original date — the boundary mapping is lossless for dates. -/
theorem c9_date_boundary (d : DomainDate) (h : ValidDomainDate d) :
    isIsoDateFormat (serialize_service_date d) = true ∧
    date_fromisoformat (serialize_service_date d) = some d := by
  obtain ⟨y, mo, da⟩ := d
  obtain ⟨h1, h2, h3, h4, h5, h6⟩ := h
  have hY1 : 1 ≤ y := h1
  have hY2 : y ≤ 9999 := h2
  have hM1 : 1 ≤ mo := h3
  have hM2 : mo ≤ 12 := h4
  have hD1 : 1 ≤ da := h5
  have hD2 : da ≤ 31 := h6
  constructor
  · simp [serialize_service_date, isIsoDateFormat, digitVal_digitChar_mod]
  · have hy : y / 1000 % 10 * 1000 + y / 100 % 10 * 100 + y / 10 % 10 * 10 +
        y % 10 = y := by omega
    have hmo : mo / 10 % 10 * 10 + mo % 10 = mo := by omega
    have hda : da / 10 % 10 * 10 + da % 10 = da := by omega
    simp [serialize_service_date, date_fromisoformat, digitVal_digitChar_mod,
      hy, hmo, hda]
    omega

/-- Witness for C9 at the notebook's service date 2025-05-05. -/
theorem c9_date_boundary_witness :
    ValidDomainDate ⟨2025, 5, 5⟩ ∧
      (isIsoDateFormat (serialize_service_date ⟨2025, 5, 5⟩) = true ∧
       date_fromisoformat (serialize_service_date ⟨2025, 5, 5⟩) =
         some ⟨2025, 5, 5⟩) :=
  ⟨by simp [ValidDomainDate], c9_date_boundary ⟨2025, 5, 5⟩ (by simp [ValidDomainDate])⟩

/-! ### Lemmas about the record primitives -/

theorem hasKey_iff {fs : List (String × CanonicalValue)} {k : String} :
    hasKey fs k = true ↔ k ∈ fs.map Prod.fst := by
  induction fs with
  | nil => simp [hasKey, lookupKey]
  | cons e fs ih =>
    obtain ⟨k', v⟩ := e
    by_cases hk : k' = k
    · subst hk
      simp [hasKey, lookupKey]
    · have hstep : hasKey ((k', v) :: fs) k = hasKey fs k := by
        simp [hasKey, lookupKey, hk]
      have hne : ¬(k = k') := fun h => hk h.symm
      rw [hstep, ih]
      simp [List.mem_cons, hne]

theorem hasKey_false_lookup {fs : List (String × CanonicalValue)} {k : String}
    (h : hasKey fs k = false) : lookupKey fs k = none := by
  unfold hasKey at h
  cases hl : lookupKey fs k
  · rfl
  · rw [hl] at h
    simp at h

theorem lookupKey_append {fs gs : List (String × CanonicalValue)} {k : String} :
    lookupKey (fs ++ gs) k =
      match lookupKey fs k with
      | some v => some v
      | none => lookupKey gs k := by
  induction fs with
  | nil => simp [lookupKey]
  | cons e fs ih =>
    obtain ⟨k', v⟩ := e
    by_cases hk : k' = k <;> simp [lookupKey, hk, ih]

theorem lookupKey_append_left {fs gs : List (String × CanonicalValue)}
    {k : String} {v : CanonicalValue} (h : lookupKey fs k = some v) :
    lookupKey (fs ++ gs) k = some v := by
  rw [lookupKey_append, h]

theorem lookupKey_append_right {fs gs : List (String × CanonicalValue)}
    {k : String} (h : hasKey fs k = false) :
    lookupKey (fs ++ gs) k = lookupKey gs k := by
  rw [lookupKey_append, hasKey_false_lookup h]

theorem hasKey_append {fs gs : List (String × CanonicalValue)} {k : String} :
    hasKey (fs ++ gs) k = (hasKey fs k || hasKey gs k) := by
  unfold hasKey
  rw [lookupKey_append]
  cases lookupKey fs k <;> simp

theorem lookupKey_setKey_self {fs : List (String × CanonicalValue)}
    {k : String} {u w : CanonicalValue} (h : lookupKey fs k = some u) :
    lookupKey (setKey fs k w) k = some w := by
  induction fs with
  | nil => simp [lookupKey] at h
  | cons e fs ih =>
    obtain ⟨k', v⟩ := e
    by_cases hk : k' = k
    · subst hk
      simp [lookupKey, setKey]
    · simp [lookupKey, setKey, hk] at h ⊢
      exact ih h

theorem lookupKey_setKey_ne {fs : List (String × CanonicalValue)}
    {k k' : String} {w : CanonicalValue} (h : k' ≠ k) :
    lookupKey (setKey fs k w) k' = lookupKey fs k' := by
  induction fs with
  | nil => simp [setKey]
  | cons e fs ih =>
    obtain ⟨k0, v⟩ := e
    by_cases hk : k0 = k
    · subst hk
      have hne : ¬(k0 = k') := fun hh => h hh.symm
      simp [setKey, lookupKey, hne]
    · by_cases hk' : k0 = k' <;> simp [setKey, lookupKey, hk, hk', h, ih]

theorem setKey_setKey {fs : List (String × CanonicalValue)} {k : String}
    {w1 w2 : CanonicalValue} :
    setKey (setKey fs k w1) k w2 = setKey fs k w2 := by
  induction fs with
  | nil => simp [setKey]
  | cons e fs ih =>
    obtain ⟨k0, v⟩ := e
    by_cases hk : k0 = k <;> simp [setKey, hk, ih]

theorem map_fst_setKey {fs : List (String × CanonicalValue)} {k : String}
    {w : CanonicalValue} : (setKey fs k w).map Prod.fst = fs.map Prod.fst := by
  induction fs with
  | nil => simp [setKey]
  | cons e fs ih =>
    obtain ⟨k0, v⟩ := e
    by_cases hk : k0 = k <;> simp [setKey, hk, ih]

theorem length_setKey {fs : List (String × CanonicalValue)} {k : String}
    {w : CanonicalValue} : (setKey fs k w).length = fs.length := by
  have := @map_fst_setKey fs k w
  have h1 := congrArg List.length this
  simpa using h1

theorem setKey_append_left {done fs : List (String × CanonicalValue)}
    {k : String} {w : CanonicalValue} (h : hasKey done k = false) :
    setKey (done ++ fs) k w = done ++ setKey fs k w := by
  induction done with
  | nil => simp
  | cons e done ih =>
    obtain ⟨k0, v⟩ := e
    by_cases hk : k0 = k
    · subst hk
      simp [hasKey, lookupKey] at h
    · have h' : hasKey done k = false := by
        simp [hasKey, lookupKey, hk] at h
        simp [hasKey, h]
      simp [setKey, hk, ih h']

theorem removeKey_append_left {done fs : List (String × CanonicalValue)}
    {k : String} (h : hasKey done k = false) :
    removeKey (done ++ fs) k = done ++ removeKey fs k := by
  induction done with
  | nil => simp
  | cons e done ih =>
    obtain ⟨k0, v⟩ := e
    by_cases hk : k0 = k
    · subst hk
      simp [hasKey, lookupKey] at h
    · have h' : hasKey done k = false := by
        simp [hasKey, lookupKey, hk] at h
        simp [hasKey, h]
      simp [removeKey, hk, ih h']

theorem lookupKey_removeKey_ne {fs : List (String × CanonicalValue)}
    {k k' : String} (h : k' ≠ k) :
    lookupKey (removeKey fs k) k' = lookupKey fs k' := by
  induction fs with
  | nil => simp [removeKey]
  | cons e fs ih =>
    obtain ⟨k0, v⟩ := e
    by_cases hk : k0 = k
    · subst hk
      have hne : ¬(k0 = k') := fun hh => h hh.symm
      simp [removeKey, lookupKey, hne]
    · by_cases hk' : k0 = k' <;> simp [removeKey, lookupKey, hk, hk', h, ih]

theorem nodupKeys_iff {fs : List (String × CanonicalValue)} :
    nodupKeys fs = true ↔ (fs.map Prod.fst).Nodup := by
  induction fs with
  | nil => simp [nodupKeys]
  | cons e fs ih =>
    obtain ⟨k, v⟩ := e
    simp only [nodupKeys, List.map_cons, List.nodup_cons, Bool.and_eq_true,
      Bool.not_eq_true']
    rw [ih]
    constructor
    · rintro ⟨h1, h2⟩
      exact ⟨fun hmem => by rw [← hasKey_iff] at hmem; rw [hmem] at h1; simp at h1, h2⟩
    · rintro ⟨h1, h2⟩
      refine ⟨?_, h2⟩
      cases hhk : hasKey fs k
      · rfl
      · exact absurd (hasKey_iff.mp hhk) h1

theorem map_fst_filter (q : String → Bool)
    (fs : List (String × CanonicalValue)) :
    (fs.filter (fun e => q e.1)).map Prod.fst = (fs.map Prod.fst).filter q := by
  induction fs with
  | nil => simp
  | cons e fs ih =>
    obtain ⟨k, v⟩ := e
    cases hq : q k <;> simp [List.filter_cons, hq, ih]

theorem hasKey_filter {fs : List (String × CanonicalValue)} {k : String}
    {p : String × CanonicalValue → Bool} (h : hasKey (fs.filter p) k = true) :
    hasKey fs k = true := by
  rw [hasKey_iff] at h ⊢
  rcases List.mem_map.mp h with ⟨e, he, rfl⟩
  exact List.mem_map.mpr ⟨e, List.mem_of_mem_filter he, rfl⟩

theorem lookupKey_filter {fs : List (String × CanonicalValue)} {k : String}
    {p : String × CanonicalValue → Bool} (hnd : nodupKeys fs = true) :
    lookupKey (fs.filter p) k =
      match lookupKey fs k with
      | some v => if p (k, v) then some v else none
      | none => none := by
  induction fs with
  | nil => simp [lookupKey]
  | cons e fs ih =>
    obtain ⟨k0, v⟩ := e
    simp [nodupKeys] at hnd
    by_cases hk : k0 = k
    · subst hk
      by_cases hp : p (k0, v)
      · simp [hp, lookupKey]
      · simp only [List.filter_cons, hp, if_neg, Bool.false_eq_true]
        have hnone : lookupKey (fs.filter p) k0 = none := by
          cases hl : lookupKey (fs.filter p) k0
          · rfl
          · have := hasKey_filter
              (show hasKey (fs.filter p) k0 = true by unfold hasKey; rw [hl]; rfl)
            rw [this] at hnd
            simp at hnd
        simp [hnone, lookupKey, hp]
    · by_cases hp : p (k0, v) <;>
        simp [lookupKey, hk, hp, ih hnd.2]

/-! ### Lemmas about the positional primitives -/

theorem getElem?_append_cons (pre xs : List CanonicalValue)
    (x : CanonicalValue) : (pre ++ x :: xs)[pre.length]? = some x := by
  induction pre with
  | nil => simp
  | cons y pre ih => simpa using ih

theorem setIdx_append_cons (pre xs : List CanonicalValue)
    (x y : CanonicalValue) :
    setIdx (pre ++ x :: xs) pre.length y = pre ++ y :: xs := by
  induction pre with
  | nil => simp [setIdx]
  | cons z pre ih => simpa [setIdx] using ih

theorem delIdx_append_cons (pre xs : List CanonicalValue) (x : CanonicalValue) :
    delIdx (pre ++ x :: xs) pre.length = pre ++ xs := by
  induction pre with
  | nil => simp [delIdx]
  | cons z pre ih => simpa [delIdx] using ih

theorem insIdx_append (pre xs : List CanonicalValue) (x : CanonicalValue) :
    insIdx (pre ++ xs) pre.length x = pre ++ x :: xs := by
  induction pre with
  | nil => simp [insIdx]
  | cons z pre ih => simpa [insIdx] using ih

theorem setIdx_setIdx {xs : List CanonicalValue} {i : Nat}
    {x y : CanonicalValue} : setIdx (setIdx xs i x) i y = setIdx xs i y := by
  induction xs generalizing i with
  | nil => simp [setIdx]
  | cons z xs ih =>
    cases i with
    | zero => simp [setIdx]
    | succ i => simp [setIdx, ih]

theorem getElem?_setIdx_self {xs : List CanonicalValue} {i : Nat}
    {x u : CanonicalValue} (h : xs[i]? = some u) :
    (setIdx xs i x)[i]? = some x := by
  induction xs generalizing i with
  | nil => simp at h
  | cons z xs ih =>
    cases i with
    | zero => simp [setIdx]
    | succ i =>
      simp [setIdx]
      exact ih (by simpa using h)

theorem getElem?_setIdx_ne {xs : List CanonicalValue} {i j : Nat}
    {x : CanonicalValue} (h : j ≠ i) : (setIdx xs i x)[j]? = xs[j]? := by
  induction xs generalizing i j with
  | nil => simp [setIdx]
  | cons z xs ih =>
    cases i with
    | zero =>
      cases j with
      | zero => exact absurd rfl h
      | succ j => simp [setIdx]
    | succ i =>
      cases j with
      | zero => simp [setIdx]
      | succ j =>
        simp [setIdx]
        exact ih (by omega)

theorem length_setIdx {xs : List CanonicalValue} {i : Nat}
    {x : CanonicalValue} : (setIdx xs i x).length = xs.length := by
  induction xs generalizing i with
  | nil => simp [setIdx]
  | cons z xs ih =>
    cases i with
    | zero => simp [setIdx]
    | succ i => simp [setIdx, ih]

theorem setKey_lookup_self {fs : List (String × CanonicalValue)} {k : String}
    {u : CanonicalValue} (h : lookupKey fs k = some u) : setKey fs k u = fs := by
  induction fs with
  | nil => simp [setKey]
  | cons e fs ih =>
    obtain ⟨k0, v⟩ := e
    by_cases hk : k0 = k
    · subst hk
      simp [lookupKey] at h
      simp [setKey, h]
    · simp [lookupKey, hk] at h
      simp [setKey, hk, ih h]

theorem setIdx_lookup_self {xs : List CanonicalValue} {i : Nat}
    {u : CanonicalValue} (h : xs[i]? = some u) : setIdx xs i u = xs := by
  induction xs generalizing i with
  | nil => simp at h
  | cons z xs ih =>
    cases i with
    | zero =>
      simp at h
      simp [setIdx, h]
    | succ i =>
      simp at h
      simp [setIdx, ih h]

/-! ### Structural equality is reflexive; introduction lemmas -/

theorem recLe_cons_some {k : String} {v v' w : CanonicalValue}
    {rest fa fb : List (String × CanonicalValue)}
    (h1 : lookupKey fa k = some v') (h2 : lookupKey fb k = some w) :
    recLe ((k, v) :: rest) fa fb = (cvEquiv v' w && recLe rest fa fb) := by
  rw [recLe, h1, h2]

theorem seqEquiv_refl_of {xs : List CanonicalValue}
    (ih : ∀ x ∈ xs, cvEquiv x x = true) : seqEquiv xs xs = true := by
  induction xs with
  | nil => rw [seqEquiv]
  | cons x xs ihx =>
    rw [seqEquiv]
    simp [ih x (by simp), ihx (fun y hy => ih y (by simp [hy]))]

theorem recLe_refl_of {fs : List (String × CanonicalValue)}
    (ih : ∀ k v, lookupKey fs k = some v → cvEquiv v v = true) :
    ∀ l, (∀ e ∈ l, hasKey fs e.1 = true) → recLe l fs fs = true := by
  intro l
  induction l with
  | nil => intro _; rw [recLe]
  | cons e rest ihl =>
    intro hl
    obtain ⟨k, v⟩ := e
    have hk : hasKey fs k = true := hl (k, v) (by simp)
    unfold hasKey at hk
    cases hv : lookupKey fs k with
    | none => rw [hv] at hk; simp at hk
    | some w =>
      rw [recLe_cons_some hv hv]
      simp [ih k w hv, ihl (fun e he => hl e (by simp [he]))]

theorem cvEquiv_refl_aux (n : Nat) :
    ∀ v : CanonicalValue, sizeOf v ≤ n → cvEquiv v v = true := by
  induction n with
  | zero => intro v h; cases v <;> simp at h
  | succ n ih =>
    intro v h
    cases v with
    | scalar s => rw [cvEquiv]; simp
    | sequence xs =>
      rw [cvEquiv]
      exact seqEquiv_refl_of (fun x hx => ih x
        (by have := List.sizeOf_lt_of_mem hx; simp at h; omega))
    | record fs =>
      rw [cvEquiv]
      have hr : ∀ l, (∀ e ∈ l, hasKey fs e.1 = true) → recLe l fs fs = true :=
        recLe_refl_of (fun k v hv => ih v
          (by have := lookupKey_sizeOf fs k v hv; simp at h; omega))
      have hmem : ∀ e ∈ fs, hasKey fs e.1 = true := by
        intro e he
        obtain ⟨k, v⟩ := e
        exact hasKey_of_mem he
      simp [hr fs hmem]

theorem cvEquiv_refl (v : CanonicalValue) : cvEquiv v v = true :=
  cvEquiv_refl_aux (sizeOf v) v (Nat.le_refl _)

theorem recLe_intro {A B : List (String × CanonicalValue)} :
    ∀ l, (∀ e ∈ l, ∃ v w, lookupKey A e.1 = some v ∧ lookupKey B e.1 = some w ∧
      cvEquiv v w = true) → recLe l A B = true := by
  intro l
  induction l with
  | nil => intro _; rw [recLe]
  | cons e rest ih =>
    intro h
    obtain ⟨k, v0⟩ := e
    obtain ⟨v, w, hv, hw, hvw⟩ := h (k, v0) (by simp)
    rw [recLe_cons_some hv hw]
    simp [hvw, ih (fun e he => h e (by simp [he]))]

theorem cvEquiv_record_intro {A B : List (String × CanonicalValue)}
    (hlen : A.length = B.length)
    (h1 : ∀ e ∈ A, ∃ v w, lookupKey A e.1 = some v ∧ lookupKey B e.1 = some w ∧
      cvEquiv v w = true)
    (h2 : ∀ e ∈ B, ∃ v w, lookupKey A e.1 = some v ∧ lookupKey B e.1 = some w ∧
      cvEquiv v w = true) :
    cvEquiv (.record A) (.record B) = true := by
  rw [cvEquiv]
  simp [hlen, recLe_intro A h1, recLe_intro B h2]

/-! ### Locality of single-operation application -/

/-- Operations as the differ produces them: a record-key or positional
operation (no count) always names its target in a non-empty path. -/
def opShaped : Operation → Prop
  | .valueChanged _ _ _ => True
  | .itemAdded p _ c => c = none → p ≠ []
  | .itemRemoved p _ c => c = none → p ≠ []

theorem frame_key {fs : List (String × CanonicalValue)} {k : String}
    {u : CanonicalValue} {op : Operation} (hl : lookupKey fs k = some u)
    (hs : opShaped op) :
    applyOp (.record fs) (prependOp [.key k] op) =
      (applyOp u op).map (fun u' => .record (setKey fs k u')) := by
  cases op with
  | valueChanged q o nv =>
    simp [prependOp, applyOp, replaceAt, hl]
  | itemAdded q x c =>
    cases c with
    | some cn => simp [prependOp, applyOp, insertAt, hl]
    | none =>
      have hq : q ≠ [] := hs rfl
      cases q with
      | nil => exact absurd rfl hq
      | cons s q' => simp [prependOp, applyOp, insertAt, hl]
  | itemRemoved q x c =>
    cases c with
    | some cn => simp [prependOp, applyOp, removeAt, hl]
    | none =>
      have hq : q ≠ [] := hs rfl
      cases q with
      | nil => exact absurd rfl hq
      | cons s q' => simp [prependOp, applyOp, removeAt, hl]

theorem frame_index {xs : List CanonicalValue} {i : Nat}
    {u : CanonicalValue} {op : Operation} (hl : xs[i]? = some u)
    (hs : opShaped op) :
    applyOp (.sequence xs) (prependOp [.index i] op) =
      (applyOp u op).map (fun u' => .sequence (setIdx xs i u')) := by
  cases op with
  | valueChanged q o nv =>
    simp [prependOp, applyOp, replaceAt, hl]
  | itemAdded q x c =>
    cases c with
    | some cn => simp [prependOp, applyOp, insertAt, hl]
    | none =>
      have hq : q ≠ [] := hs rfl
      cases q with
      | nil => exact absurd rfl hq
      | cons s q' => simp [prependOp, applyOp, insertAt, hl]
  | itemRemoved q x c =>
    cases c with
    | some cn => simp [prependOp, applyOp, removeAt, hl]
    | none =>
      have hq : q ≠ [] := hs rfl
      cases q with
      | nil => exact absurd rfl hq
      | cons s q' => simp [prependOp, applyOp, removeAt, hl]

theorem foldFrame_key {ops : List Operation}
    {fs : List (String × CanonicalValue)} {k : String} {u : CanonicalValue}
    (hsh : ∀ op ∈ ops, opShaped op) (hl : lookupKey fs k = some u) :
    (ops.map (prependOp [.key k])).foldlM applyOp (.record fs) =
      (ops.foldlM applyOp u).map (fun u' => .record (setKey fs k u')) := by
  induction ops generalizing fs u with
  | nil => simp [Except.map, pure, Except.pure, setKey_lookup_self hl]
  | cons op ops ih =>
    rw [List.map_cons, List.foldlM_cons, List.foldlM_cons,
      frame_key hl (hsh op (by simp))]
    cases hap : applyOp u op with
    | error e => simp [hap, Bind.bind, Except.bind, Except.map]
    | ok u1 =>
      have hl1 : lookupKey (setKey fs k u1) k = some u1 := lookupKey_setKey_self hl
      simp only [hap, Except.map, Bind.bind, Except.bind]
      rw [ih (fun o ho => hsh o (by simp [ho])) hl1]
      simp only [setKey_setKey]
      cases ops.foldlM applyOp u1 <;> simp [Except.map]

theorem foldFrame_index {ops : List Operation} {xs : List CanonicalValue}
    {i : Nat} {u : CanonicalValue}
    (hsh : ∀ op ∈ ops, opShaped op) (hl : xs[i]? = some u) :
    (ops.map (prependOp [.index i])).foldlM applyOp (.sequence xs) =
      (ops.foldlM applyOp u).map (fun u' => .sequence (setIdx xs i u')) := by
  induction ops generalizing xs u with
  | nil => simp [Except.map, pure, Except.pure, setIdx_lookup_self hl]
  | cons op ops ih =>
    rw [List.map_cons, List.foldlM_cons, List.foldlM_cons,
      frame_index hl (hsh op (by simp))]
    cases hap : applyOp u op with
    | error e => simp [hap, Bind.bind, Except.bind, Except.map]
    | ok u1 =>
      have hl1 : (setIdx xs i u1)[i]? = some u1 := getElem?_setIdx_self hl
      simp only [hap, Except.map, Bind.bind, Except.bind]
      rw [ih (fun o ho => hsh o (by simp [ho])) hl1]
      simp only [setIdx_setIdx]
      cases ops.foldlM applyOp u1 <;> simp [Except.map]

/-! ### Every operation the differ emits is well-shaped -/

theorem prependOp_shaped (s : PathStep) (p : Path) (op : Operation) :
    opShaped (prependOp (s :: p) op) := by
  cases op <;> simp [opShaped, prependOp]

theorem diffUnordered_shaped {xs ys : List CanonicalValue} {op : Operation}
    (h : op ∈ diffUnordered xs ys) : opShaped op := by
  rw [diffUnordered] at h
  rcases List.mem_flatMap.mp h with ⟨v, _, hmem⟩
  by_cases h1 : countE v xs < countE v ys
  · simp only [h1, if_true, List.mem_singleton] at hmem
    subst hmem
    simp [opShaped]
  · by_cases h2 : countE v ys < countE v xs
    · simp only [h1, h2, if_false, if_true, List.mem_singleton] at hmem
      subst hmem
      simp [opShaped]
    · simp [h1, h2] at hmem

theorem diffRecAdded_shaped {fa fb : List (String × CanonicalValue)}
    {op : Operation} (h : op ∈ diffRecAdded fa fb) : opShaped op := by
  rw [diffRecAdded] at h
  rcases List.mem_filterMap.mp h with ⟨e, _, he⟩
  by_cases hk : hasKey fa e.1 <;> simp [hk] at he
  subst he
  simp [opShaped]

theorem diffSeq_shaped (ins : Bool) :
    ∀ xs ys : List CanonicalValue, ∀ i op, op ∈ diffSeq ins i xs ys →
      opShaped op := by
  intro xs
  induction xs with
  | nil =>
    intro ys
    induction ys with
    | nil => intro i op h; rw [diffSeq] at h; simp at h
    | cons y ys ihy =>
      intro i op h
      rw [diffSeq] at h
      rcases List.mem_cons.mp h with rfl | h
      · simp [opShaped]
      · exact ihy (i + 1) op h
  | cons x xs ihx =>
    intro ys i op h
    cases ys with
    | nil =>
      rw [diffSeq] at h
      rcases List.mem_append.mp h with h | h
      · exact ihx [] (i + 1) op h
      · simp at h
        subst h
        simp [opShaped]
    | cons y ys =>
      rw [diffSeq] at h
      rcases List.mem_append.mp h with h | h
      · rcases List.mem_map.mp h with ⟨op', _, rfl⟩
        exact prependOp_shaped _ _ _
      · exact ihx ys (i + 1) op h

theorem diffRecA_shaped (ins : Bool) (fb : List (String × CanonicalValue)) :
    ∀ todo op, op ∈ diffRecA ins todo fb → opShaped op := by
  intro todo
  induction todo with
  | nil => intro op h; rw [diffRecA] at h; simp at h
  | cons e rest ih =>
    intro op h
    obtain ⟨k, va⟩ := e
    rw [diffRecA] at h
    rcases List.mem_append.mp h with h | h
    · cases hvb : lookupKey fb k with
      | some vb =>
        rw [hvb] at h
        simp only at h
        rcases List.mem_map.mp h with ⟨op', _, rfl⟩
        exact prependOp_shaped _ _ _
      | none =>
        rw [hvb] at h
        simp only [List.mem_singleton] at h
        subst h
        simp [opShaped]
    · exact ih op h

theorem diff_shaped {ins : Bool} {a b : CanonicalValue} {op : Operation}
    (h : op ∈ diff ins a b) : opShaped op := by
  cases a with
  | scalar s =>
    cases b with
    | scalar t =>
      rw [diff] at h
      by_cases hst : s = t <;> simp [hst] at h
      subst h
      simp [opShaped]
    | sequence ys => simp only [diff] at h; simp at h; subst h; simp [opShaped]
    | record fb => simp only [diff] at h; simp at h; subst h; simp [opShaped]
  | sequence xs =>
    cases b with
    | scalar t => simp only [diff] at h; simp at h; subst h; simp [opShaped]
    | sequence ys =>
      rw [diff] at h
      cases ins with
      | true =>
        simp only [if_true] at h
        exact diffUnordered_shaped h
      | false =>
        simp only [Bool.false_eq_true, if_false] at h
        exact diffSeq_shaped false xs ys 0 op h
    | record fb => simp only [diff] at h; simp at h; subst h; simp [opShaped]
  | record fa =>
    cases b with
    | scalar t => simp only [diff] at h; simp at h; subst h; simp [opShaped]
    | sequence ys => simp only [diff] at h; simp at h; subst h; simp [opShaped]
    | record fb =>
      rw [diff] at h
      rcases List.mem_append.mp h with h | h
      · exact diffRecA_shaped ins fb fa op h
      · exact diffRecAdded_shaped h

/-! ### Forward round trip: sequences (order-sensitive mode, spec §8) -/

theorem seqEquiv_nil_right {zs : List CanonicalValue}
    (h : seqEquiv zs [] = true) : zs = [] := by
  cases zs with
  | nil => rfl
  | cons z zs =>
    simp only [seqEquiv] at h
    simp at h

theorem fwd_seq :
    ∀ (xs ys pre : List CanonicalValue),
      (∀ x y, x ∈ xs → y ∈ ys →
        ∃ d, (diff false x y).foldlM applyOp x = .ok d ∧ cvEquiv d y = true) →
      ∃ zs, (diffSeq false pre.length xs ys).foldlM applyOp
          (.sequence (pre ++ xs)) = .ok (.sequence (pre ++ zs)) ∧
        seqEquiv zs ys = true := by
  intro xs
  induction xs with
  | nil =>
    intro ys
    induction ys with
    | nil =>
      intro pre _
      refine ⟨[], ?_, by rw [seqEquiv]⟩
      rw [diffSeq]
      simp [pure, Except.pure]
    | cons y ys ihy =>
      intro pre _
      rw [diffSeq, List.foldlM_cons]
      have hins : applyOp (.sequence (pre ++ [])) (.itemAdded [.index pre.length] y none) =
          .ok (.sequence (pre ++ [y])) := by
        have hip : insIdx pre pre.length y = pre ++ [y] := by
          simpa using insIdx_append pre [] y
        simp [applyOp, insertAt, hip]
      rw [hins]
      obtain ⟨zs, hfold, hequiv⟩ := ihy (pre ++ [y]) (by intro x y hx _; simp at hx)
      refine ⟨y :: zs, ?_, ?_⟩
      · have hlen : (pre ++ [y]).length = pre.length + 1 := by simp
        rw [hlen] at hfold
        simp only [List.append_nil] at hfold ⊢
        simp only [Bind.bind, Except.bind]
        rw [hfold]
        simp [List.append_assoc]
      · rw [seqEquiv]
        simp [cvEquiv_refl, hequiv]
  | cons x xs ihx =>
    intro ys pre ihm
    cases ys with
    | nil =>
      rw [diffSeq, List.foldlM_append]
      obtain ⟨zs, hfold, hequiv⟩ := ihx [] (pre ++ [x]) (by intro x' y' _ hy; simp at hy)
      have hzs : zs = [] := seqEquiv_nil_right hequiv
      subst hzs
      have hstate : pre ++ x :: xs = (pre ++ [x]) ++ xs := by simp
      have hlen : (pre ++ [x]).length = pre.length + 1 := by simp
      rw [hlen] at hfold
      rw [hstate, hfold]
      simp only [List.append_nil, Bind.bind, Except.bind]
      have hget : (pre ++ [x])[pre.length]? = some x := getElem?_append_cons pre [] x
      have hrem : applyOp (.sequence (pre ++ [x])) (.itemRemoved [.index pre.length] x none) =
          .ok (.sequence pre) := by
        have hdel : delIdx (pre ++ [x]) pre.length = pre := by
          have := delIdx_append_cons pre [] x
          simpa using this
        simp [applyOp, removeAt, hget, hdel]
      refine ⟨[], ?_, by rw [seqEquiv]⟩
      simp only [List.foldlM_cons, hrem]
      simp [Bind.bind, Except.bind, pure, Except.pure]
    | cons y ys =>
      rw [diffSeq, List.foldlM_append]
      obtain ⟨d, hd, hdy⟩ := ihm x y (by simp) (by simp)
      have hget : (pre ++ x :: xs)[pre.length]? = some x := getElem?_append_cons pre xs x
      rw [foldFrame_index (fun o ho => diff_shaped ho) hget, hd]
      simp only [Except.map, Bind.bind, Except.bind]
      rw [setIdx_append_cons]
      obtain ⟨zs, hfold, hequiv⟩ := ihx ys (pre ++ [d])
        (fun x' y' hx hy => ihm x' y' (by simp [hx]) (by simp [hy]))
      have hlen : (pre ++ [d]).length = pre.length + 1 := by simp
      rw [hlen] at hfold
      have hstate : (pre ++ [d]) ++ xs = pre ++ d :: xs := by simp
      rw [hstate] at hfold
      refine ⟨d :: zs, ?_, ?_⟩
      · rw [hfold]
        simp [List.append_assoc]
      · rw [seqEquiv]
        simp [hdy, hequiv]

/-! ### Forward round trip: records (spec §8) -/

/-- Relates a record's fields to their state after applying the differ's
per-key operations: keys shared with `fb` keep their position with a value
structurally equal to `fb`'s, keys absent from `fb` are removed. -/
inductive Resolved (fb : List (String × CanonicalValue)) :
    List (String × CanonicalValue) → List (String × CanonicalValue) → Prop
  | nil : Resolved fb [] []
  | common {k : String} {va vb d : CanonicalValue}
      {todo res : List (String × CanonicalValue)} :
      lookupKey fb k = some vb → cvEquiv d vb = true → Resolved fb todo res →
      Resolved fb ((k, va) :: todo) ((k, d) :: res)
  | aonly {k : String} {va : CanonicalValue}
      {todo res : List (String × CanonicalValue)} :
      lookupKey fb k = none → Resolved fb todo res →
      Resolved fb ((k, va) :: todo) res

theorem resolved_map_fst {fb todo res : List (String × CanonicalValue)}
    (h : Resolved fb todo res) :
    res.map Prod.fst = (todo.filter (fun e => hasKey fb e.1)).map Prod.fst := by
  induction h with
  | nil => simp
  | common hlb hequiv hrec ih =>
    rename_i k va vb d todo res
    have hk : hasKey fb k = true := by unfold hasKey; rw [hlb]; rfl
    simp [List.filter_cons, hk, ih]
  | aonly hlb hrec ih =>
    rename_i k va todo res
    have hk : hasKey fb k = false := by unfold hasKey; rw [hlb]; rfl
    simp [List.filter_cons, hk, ih]

theorem resolved_hasKey {fb todo res : List (String × CanonicalValue)}
    (h : Resolved fb todo res) {k : String} (hk : hasKey res k = true) :
    hasKey todo k = true := by
  rw [hasKey_iff] at hk ⊢
  rw [resolved_map_fst h] at hk
  rcases List.mem_map.mp hk with ⟨e, he, rfl⟩
  exact List.mem_map.mpr ⟨e, List.mem_of_mem_filter he, rfl⟩

theorem resolved_lookup {fb todo res : List (String × CanonicalValue)}
    (h : Resolved fb todo res) (hnd : nodupKeys todo = true) :
    ∀ k d, lookupKey res k = some d →
      ∃ vb, lookupKey fb k = some vb ∧ cvEquiv d vb = true := by
  induction h with
  | nil => intro k d hd; simp [lookupKey] at hd
  | common hlb hequiv hrec ih =>
    intro k0 d0 hd
    rename_i k va vb d todo res
    simp [nodupKeys] at hnd
    by_cases hk : k = k0
    · subst hk
      simp [lookupKey] at hd
      subst hd
      exact ⟨vb, hlb, hequiv⟩
    · simp [lookupKey, hk] at hd
      exact ih hnd.2 k0 d0 hd
  | aonly hlb hrec ih =>
    intro k0 d0 hd
    simp [nodupKeys] at hnd
    exact ih hnd.2 k0 d0 hd

theorem resolved_lookup_common {fb todo res : List (String × CanonicalValue)}
    (h : Resolved fb todo res) (hnd : nodupKeys todo = true) :
    ∀ k va vb, lookupKey todo k = some va → lookupKey fb k = some vb →
      ∃ d, lookupKey res k = some d ∧ cvEquiv d vb = true := by
  induction h with
  | nil => intro k va vb hva _; simp [lookupKey] at hva
  | common hlb hequiv hrec ih =>
    intro k0 va0 vb0 hva hvb
    rename_i k va vb d todo res
    simp [nodupKeys] at hnd
    by_cases hk : k = k0
    · subst hk
      rw [hlb] at hvb
      injection hvb with hvb
      subst hvb
      exact ⟨d, by simp [lookupKey], hequiv⟩
    · simp [lookupKey, hk] at hva ⊢
      exact ih hnd.2 k0 va0 vb0 hva hvb
  | aonly hlb hrec ih =>
    intro k0 va0 vb0 hva hvb
    rename_i k va todo res
    simp [nodupKeys] at hnd
    by_cases hk : k = k0
    · subst hk
      rw [hlb] at hvb
      simp at hvb
    · simp [lookupKey, hk] at hva
      exact ih hnd.2 k0 va0 vb0 hva hvb

theorem nodupKeys_middle {done todo : List (String × CanonicalValue)}
    {k : String} {v : CanonicalValue}
    (h : nodupKeys (done ++ (k, v) :: todo) = true) :
    hasKey done k = false ∧ hasKey todo k = false ∧
      nodupKeys (done ++ todo) = true := by
  rw [nodupKeys_iff] at h
  have h2 : (List.map Prod.fst done ++ k :: List.map Prod.fst todo).Nodup := by
    simpa using h
  rw [List.nodup_middle, List.nodup_cons] at h2
  have hnotmem : k ∉ List.map Prod.fst done ++ List.map Prod.fst todo := h2.1
  refine ⟨?_, ?_, ?_⟩
  · cases hh : hasKey done k
    · rfl
    · exact absurd (List.mem_append.mpr (Or.inl (hasKey_iff.mp hh))) hnotmem
  · cases hh : hasKey todo k
    · rfl
    · exact absurd (List.mem_append.mpr (Or.inr (hasKey_iff.mp hh))) hnotmem
  · rw [nodupKeys_iff]
    simpa using h2.2

theorem nodupKeys_set_middle {done todo : List (String × CanonicalValue)}
    {k : String} {v w : CanonicalValue}
    (h : nodupKeys (done ++ (k, v) :: todo) = true) :
    nodupKeys (done ++ (k, w) :: todo) = true := by
  rw [nodupKeys_iff] at h ⊢
  simpa using (by simpa using h : (List.map Prod.fst done ++
    k :: List.map Prod.fst todo).Nodup)

theorem fwd_recA (fb : List (String × CanonicalValue)) :
    ∀ todo done : List (String × CanonicalValue),
      nodupKeys (done ++ todo) = true →
      (∀ k va vb, (k, va) ∈ todo → lookupKey fb k = some vb →
        ∃ d, (diff false va vb).foldlM applyOp va = .ok d ∧ cvEquiv d vb = true) →
      ∃ res, (diffRecA false todo fb).foldlM applyOp (.record (done ++ todo)) =
          .ok (.record (done ++ res)) ∧ Resolved fb todo res := by
  intro todo
  induction todo with
  | nil =>
    intro done hnd _
    refine ⟨[], ?_, .nil⟩
    rw [diffRecA]
    simp [pure, Except.pure]
  | cons e todo ih =>
    intro done hnd ihm
    obtain ⟨k, va⟩ := e
    obtain ⟨hkdone, hktodo, hnd'⟩ := nodupKeys_middle hnd
    have hlook : lookupKey (done ++ (k, va) :: todo) k = some va := by
      rw [lookupKey_append_right hkdone]
      simp [lookupKey]
    cases hvb : lookupKey fb k with
    | some vb =>
      have hblock : diffRecA false ((k, va) :: todo) fb =
          (diff false va vb).map (prependOp [.key k]) ++ diffRecA false todo fb := by
        rw [diffRecA, hvb]
      rw [hblock, List.foldlM_append]
      obtain ⟨d, hd, hdvb⟩ := ihm k va vb (by simp) hvb
      rw [foldFrame_key (fun o ho => diff_shaped ho) hlook, hd]
      have hset : setKey (done ++ (k, va) :: todo) k d = done ++ (k, d) :: todo := by
        rw [setKey_append_left hkdone]
        simp [setKey]
      simp only [Except.map, Bind.bind, Except.bind, hset]
      have hnd2 : nodupKeys ((done ++ [(k, d)]) ++ todo) = true := by
        have hx : nodupKeys (done ++ (k, d) :: todo) = true :=
          nodupKeys_set_middle hnd
        simpa using hx
      obtain ⟨res, hfold, hres⟩ := ih (done ++ [(k, d)]) hnd2
        (fun k' va' vb' hm hv => ihm k' va' vb' (by simp [hm]) hv)
      refine ⟨(k, d) :: res, ?_, .common hvb hdvb hres⟩
      have hassoc : done ++ (k, d) :: todo = (done ++ [(k, d)]) ++ todo := by simp
      rw [hassoc, hfold]
      simp
    | none =>
      have hblock : diffRecA false ((k, va) :: todo) fb =
          .itemRemoved [.key k] va none :: diffRecA false todo fb := by
        rw [diffRecA, hvb]
        simp
      rw [hblock, List.foldlM_cons]
      have hremk : removeKey (done ++ (k, va) :: todo) k = done ++ todo := by
        rw [removeKey_append_left hkdone]
        simp [removeKey]
      have hrem : applyOp (.record (done ++ (k, va) :: todo))
          (.itemRemoved [.key k] va none) = .ok (.record (done ++ todo)) := by
        simp [applyOp, removeAt, hlook, hremk]
      obtain ⟨res, hfold, hres⟩ := ih done hnd'
        (fun k' va' vb' hm hv => ihm k' va' vb' (by simp [hm]) hv)
      refine ⟨res, ?_, .aonly hvb hres⟩
      simp only [hrem, Bind.bind, Except.bind, List.foldlM_nil, pure, Except.pure]
      exact hfold

theorem fwd_recAdd (fa : List (String × CanonicalValue)) :
    ∀ (fbtodo g : List (String × CanonicalValue)),
      nodupKeys fbtodo = true →
      (∀ e ∈ fbtodo, hasKey fa e.1 = false → hasKey g e.1 = false) →
      (diffRecAdded fa fbtodo).foldlM applyOp (.record g) =
        .ok (.record (g ++ fbtodo.filter (fun e => !hasKey fa e.1))) := by
  intro fbtodo
  induction fbtodo with
  | nil =>
    intro g _ _
    rw [diffRecAdded]
    simp [pure, Except.pure]
  | cons e rest ih =>
    intro g hnd habs
    obtain ⟨k, vb⟩ := e
    simp only [nodupKeys, Bool.and_eq_true, Bool.not_eq_true'] at hnd
    cases hk : hasKey fa k with
    | true =>
      have hblock : diffRecAdded fa ((k, vb) :: rest) = diffRecAdded fa rest := by
        rw [diffRecAdded, diffRecAdded]
        simp [List.filterMap_cons, hk]
      rw [hblock, ih g hnd.2 (fun e he hfa => habs e (by simp [he]) hfa)]
      simp [List.filter_cons, hk]
    | false =>
      have hblock : diffRecAdded fa ((k, vb) :: rest) =
          .itemAdded [.key k] vb none :: diffRecAdded fa rest := by
        rw [diffRecAdded, diffRecAdded]
        simp [List.filterMap_cons, hk]
      have hgk : hasKey g k = false := habs (k, vb) (by simp) hk
      have hins : applyOp (.record g) (.itemAdded [.key k] vb none) =
          .ok (.record (g ++ [(k, vb)])) := by
        simp [applyOp, insertAt, hgk]
      have habs' : ∀ e ∈ rest, hasKey fa e.1 = false →
          hasKey (g ++ [(k, vb)]) e.1 = false := by
        intro e he hfa
        rw [hasKey_append]
        have h1 : hasKey g e.1 = false := habs e (by simp [he]) hfa
        have h2 : hasKey [(k, vb)] e.1 = false := by
          have hek : e.1 ≠ k := by
            intro hek
            have : hasKey rest k = true := by
              rw [hasKey_iff]
              exact List.mem_map.mpr ⟨e, he, hek⟩
            rw [this] at hnd
            simp at hnd
          have hke : ¬(k = e.1) := fun h => hek h.symm
          simp [hasKey, lookupKey, hke]
        rw [h1, h2]
        rfl
      rw [hblock, List.foldlM_cons]
      simp only [hins, Bind.bind, Except.bind]
      rw [ih (g ++ [(k, vb)]) hnd.2 habs']
      simp [List.filter_cons, hk]

theorem filter_partition_length {α : Type} (p : α → Bool) (l : List α) :
    (l.filter p).length + (l.filter (fun x => !p x)).length = l.length := by
  induction l with
  | nil => simp
  | cons x l ih =>
    cases hx : p x <;> simp [List.filter_cons, hx] <;> omega

theorem filter_common_length {fa fb : List (String × CanonicalValue)}
    (hnda : nodupKeys fa = true) (hndb : nodupKeys fb = true) :
    (fa.filter (fun e => hasKey fb e.1)).length =
      (fb.filter (fun e => hasKey fa e.1)).length := by
  have h1 : (fa.filter (fun e => hasKey fb e.1)).length =
      ((fa.map Prod.fst).filter (fun k => hasKey fb k)).length := by
    rw [← map_fst_filter]
    simp
  have h2 : (fb.filter (fun e => hasKey fa e.1)).length =
      ((fb.map Prod.fst).filter (fun k => hasKey fa k)).length := by
    rw [← map_fst_filter]
    simp
  rw [h1, h2]
  have hka : ((fa.map Prod.fst).filter (fun k => hasKey fb k)).Nodup :=
    (nodupKeys_iff.mp hnda).filter _
  have hkb : ((fb.map Prod.fst).filter (fun k => hasKey fa k)).Nodup :=
    (nodupKeys_iff.mp hndb).filter _
  have hsub1 : (fa.map Prod.fst).filter (fun k => hasKey fb k) ⊆
      (fb.map Prod.fst).filter (fun k => hasKey fa k) := by
    intro x hx
    rcases List.mem_filter.mp hx with ⟨hxa, hxb⟩
    exact List.mem_filter.mpr ⟨hasKey_iff.mp hxb, by rw [hasKey_iff.mpr hxa]⟩
  have hsub2 : (fb.map Prod.fst).filter (fun k => hasKey fa k) ⊆
      (fa.map Prod.fst).filter (fun k => hasKey fb k) := by
    intro x hx
    rcases List.mem_filter.mp hx with ⟨hxb, hxa⟩
    exact List.mem_filter.mpr ⟨hasKey_iff.mp hxa, by rw [hasKey_iff.mpr hxb]⟩
  exact ((hka.subperm hsub1).antisymm (hkb.subperm hsub2)).length_eq

theorem WF_record_nodup {fs : List (String × CanonicalValue)}
    (h : WFv (.record fs) = true) : nodupKeys fs = true := by
  rw [WFv] at h
  exact (Bool.and_eq_true .. ▸ h).1

theorem WF_record_fields {fs : List (String × CanonicalValue)}
    (h : WFv (.record fs) = true) : WFfields fs = true := by
  rw [WFv] at h
  exact (Bool.and_eq_true .. ▸ h).2

theorem fwd_aux (n : Nat) :
    ∀ a b : CanonicalValue, sizeOf a + sizeOf b ≤ n →
      WFv a = true → WFv b = true →
      ∃ d, (diff false a b).foldlM applyOp a = .ok d ∧ cvEquiv d b = true := by
  induction n with
  | zero => intro a b h; cases a <;> simp at h
  | succ n ih =>
    have hdefault : ∀ a b : CanonicalValue,
        diff false a b = [.valueChanged [] a b] →
        ∃ d, (diff false a b).foldlM applyOp a = .ok d ∧ cvEquiv d b = true := by
      intro a b hd
      refine ⟨b, ?_, cvEquiv_refl b⟩
      rw [hd]
      simp [applyOp, replaceAt, pure, Except.pure, Bind.bind, Except.bind]
    intro a b hsz hwa hwb
    cases a with
    | scalar s =>
      cases b with
      | scalar t =>
        by_cases hst : s = t
        · subst hst
          refine ⟨.scalar s, ?_, by rw [cvEquiv]; simp⟩
          rw [diff]
          simp [pure, Except.pure]
        · exact hdefault _ _ (by rw [diff]; simp [hst])
      | sequence ys => exact hdefault _ _ (by simp only [diff])
      | record fb => exact hdefault _ _ (by simp only [diff])
    | sequence xs =>
      cases b with
      | scalar t => exact hdefault _ _ (by simp only [diff])
      | sequence ys =>
        have hxs : WFlist xs = true := by rw [WFv] at hwa; exact hwa
        have hys : WFlist ys = true := by rw [WFv] at hwb; exact hwb
        obtain ⟨zs, hfold, hequiv⟩ := fwd_seq xs ys []
          (by
            intro x y hx hy
            refine ih x y ?_ (WFlist_mem hxs hx) (WFlist_mem hys hy)
            have h1 := List.sizeOf_lt_of_mem hx
            have h2 := List.sizeOf_lt_of_mem hy
            simp at hsz
            omega)
        refine ⟨.sequence zs, ?_, by rw [cvEquiv]; exact hequiv⟩
        rw [diff]
        simpa using hfold
      | record fb => exact hdefault _ _ (by simp only [diff])
    | record fa =>
      cases b with
      | scalar t => exact hdefault _ _ (by simp only [diff])
      | sequence ys => exact hdefault _ _ (by simp only [diff])
      | record fb =>
        have hnda := WF_record_nodup hwa
        have hndb := WF_record_nodup hwb
        have hfka := WF_record_fields hwa
        have hfkb := WF_record_fields hwb
        obtain ⟨res, hfoldA, hres⟩ := fwd_recA fb fa []
          (by simpa using hnda)
          (by
            intro k va vb hm hv
            refine ih va vb ?_ (WFfields_mem hfka hm) (WFfields_mem hfkb (mem_of_lookupKey hv))
            have h1 := List.sizeOf_lt_of_mem hm
            have h2 := lookupKey_sizeOf fb k vb hv
            simp at hsz h1
            omega)
        have hressub : ∀ e ∈ fb, hasKey fa e.1 = false → hasKey res e.1 = false := by
          intro e _ hfa
          cases hr : hasKey res e.1
          · rfl
          · have := resolved_hasKey hres hr
            rw [this] at hfa
            simp at hfa
        have hfoldB := fwd_recAdd fa fb res hndb hressub
        have hndres : nodupKeys res = true := by
          rw [nodupKeys_iff, resolved_map_fst hres, map_fst_filter (fun k => hasKey fb k)]
          exact (nodupKeys_iff.mp hnda).filter _
        have hndbonly : nodupKeys (fb.filter (fun e => !hasKey fa e.1)) = true := by
          rw [nodupKeys_iff, map_fst_filter (fun k => !hasKey fa k)]
          exact (nodupKeys_iff.mp hndb).filter _
        refine ⟨.record (res ++ fb.filter (fun e => !hasKey fa e.1)), ?_, ?_⟩
        · rw [diff, List.foldlM_append]
          simp only [List.nil_append] at hfoldA
          rw [hfoldA]
          simp only [Bind.bind, Except.bind, List.nil_append]
          exact hfoldB
        · have hlen : (res ++ fb.filter (fun e => !hasKey fa e.1)).length = fb.length := by
            have l1 : res.length = (fa.filter (fun e => hasKey fb e.1)).length := by
              have := congrArg List.length (resolved_map_fst hres)
              simpa using this
            have l2 := filter_common_length hnda hndb
            have l3 := filter_partition_length (fun e => hasKey fa e.1) fb
            simp only [List.length_append]
            omega
          refine cvEquiv_record_intro hlen ?_ ?_
          · intro e he
            rcases List.mem_append.mp he with hmem | hmem
            · obtain ⟨k, d0⟩ := e
              have hlr : lookupKey res k = some d0 := lookupKey_of_mem_nodup hndres hmem
              obtain ⟨vb, hvb, hequiv⟩ := resolved_lookup hres hnda k d0 hlr
              exact ⟨d0, vb, lookupKey_append_left hlr, hvb, hequiv⟩
            · obtain ⟨k, w⟩ := e
              have hfa : hasKey fa k = false := by
                have := (List.mem_filter.mp hmem).2
                simpa using this
              have hmemfb : (k, w) ∈ fb := List.mem_of_mem_filter hmem
              have hlb : lookupKey fb k = some w := lookupKey_of_mem_nodup hndb hmemfb
              have hlbonly : lookupKey (fb.filter (fun e => !hasKey fa e.1)) k = some w :=
                lookupKey_of_mem_nodup hndbonly hmem
              have hresk : hasKey res k = false := hressub (k, w) hmemfb hfa
              exact ⟨w, w, by rw [lookupKey_append_right hresk]; exact hlbonly,
                hlb, cvEquiv_refl w⟩
          · intro e he
            obtain ⟨k, w⟩ := e
            have hlb : lookupKey fb k = some w := lookupKey_of_mem_nodup hndb he
            cases hfa : hasKey fa k with
            | true =>
              obtain ⟨va, hva⟩ : ∃ va, lookupKey fa k = some va := by
                unfold hasKey at hfa
                cases hl : lookupKey fa k
                · rw [hl] at hfa; simp at hfa
                · exact ⟨_, rfl⟩
              obtain ⟨d0, hld, hequiv⟩ := resolved_lookup_common hres hnda k va w hva hlb
              exact ⟨d0, w, lookupKey_append_left hld, hlb, hequiv⟩
            | false =>
              have hmemb : (k, w) ∈ fb.filter (fun e => !hasKey fa e.1) :=
                List.mem_filter.mpr ⟨he, by simp [hfa]⟩
              have hlbonly : lookupKey (fb.filter (fun e => !hasKey fa e.1)) k = some w :=
                lookupKey_of_mem_nodup hndbonly hmemb
              have hresk : hasKey res k = false := hressub (k, w) he hfa
              exact ⟨w, w, by rw [lookupKey_append_right hresk]; exact hlbonly,
                hlb, cvEquiv_refl w⟩

/-- C2: for every pair of well-formed CanonicalValue snapshots A and B,
building a Delta from `diff(A, B)` and calling `apply` on A succeeds and
returns a value structurally equal to B (spec §3 structural equality: record
key order is not semantically significant). -/
theorem c2_round_trip_forward (a b : CanonicalValue)
    (ha : WFv a = true) (hb : WFv b = true) :
    ∃ d, Delta.apply ⟨diff false a b⟩ a = .ok d ∧ cvEquiv d b = true :=
  fwd_aux (sizeOf a + sizeOf b) a b (Nat.le_refl _) ha hb

/-- Witness for C2 at the notebook's snapshots. -/
theorem c2_round_trip_forward_witness :
    ∃ d, Delta.apply ⟨diff false carDumpV1 carDumpV2⟩ carDumpV1 = .ok d ∧
      cvEquiv d carDumpV2 = true :=
  c2_round_trip_forward carDumpV1 carDumpV2 (by decide) (by decide)

/-! ### Inverse round trip: preliminaries -/

theorem invertOp_prependOp (p : Path) (op : Operation) :
    invertOp (prependOp p op) = prependOp p (invertOp op) := by
  cases op <;> simp [invertOp, prependOp]

theorem invertOp_shaped {op : Operation} (h : opShaped op) :
    opShaped (invertOp op) := by
  cases op <;> simpa [invertOp, opShaped] using h

theorem rev_inv_map_prepend (p : Path) (l : List Operation) :
    ((l.map (prependOp p)).reverse.map invertOp) =
      ((l.reverse.map invertOp).map (prependOp p)) := by
  rw [← List.map_reverse, List.map_map, List.map_map]
  apply List.map_congr_left
  intro op _
  simp [Function.comp, invertOp_prependOp]

theorem mem_rev_inv_shaped {l : List Operation}
    (hsh : ∀ op ∈ l, opShaped op) :
    ∀ op ∈ l.reverse.map invertOp, opShaped op := by
  intro op hop
  rcases List.mem_map.mp hop with ⟨op', hop', rfl⟩
  exact invertOp_shaped (hsh op' (List.mem_reverse.mp hop'))

theorem diffRecA_append (ins : Bool) (fb : List (String × CanonicalValue)) :
    ∀ l1 l2 : List (String × CanonicalValue),
      diffRecA ins (l1 ++ l2) fb = diffRecA ins l1 fb ++ diffRecA ins l2 fb := by
  intro l1
  induction l1 with
  | nil => intro l2; rw [diffRecA]; simp
  | cons e l1 ih =>
    intro l2
    obtain ⟨k, va⟩ := e
    rw [show ((k, va) :: l1) ++ l2 = (k, va) :: (l1 ++ l2) by simp,
      diffRecA, diffRecA, ih]
    simp

theorem diffRecAdded_append (fa : List (String × CanonicalValue))
    (l1 l2 : List (String × CanonicalValue)) :
    diffRecAdded fa (l1 ++ l2) = diffRecAdded fa l1 ++ diffRecAdded fa l2 := by
  rw [diffRecAdded, diffRecAdded, diffRecAdded, List.filterMap_append]

theorem lookupKey_snoc_ne {g : List (String × CanonicalValue)}
    {k k' : String} {x : CanonicalValue} (h : k' ≠ k) :
    lookupKey (g ++ [(k, x)]) k' = lookupKey g k' := by
  rw [lookupKey_append]
  have hne : ¬(k = k') := fun hh => h hh.symm
  cases hl : lookupKey g k'
  · simp [lookupKey, hne]
  · simp

theorem nodupKeys_snoc {g : List (String × CanonicalValue)} {k : String}
    {x : CanonicalValue} (hnd : nodupKeys g = true) (hk : hasKey g k = false) :
    nodupKeys (g ++ [(k, x)]) = true := by
  rw [nodupKeys_iff]
  simp only [List.map_append, List.map_cons, List.map_nil]
  rw [List.nodup_append]
  refine ⟨nodupKeys_iff.mp hnd, by simp, ?_⟩
  intro a ha
  simp only [List.mem_cons, List.not_mem_nil, or_false]
  intro hak
  subst hak
  rw [hasKey_iff.mpr ha] at hk
  simp at hk

theorem hasKey_setKey {g : List (String × CanonicalValue)} {k k' : String}
    {c : CanonicalValue} : hasKey (setKey g k c) k' = hasKey g k' := by
  have hmap : (setKey g k c).map Prod.fst = g.map Prod.fst := map_fst_setKey
  cases h1 : hasKey g k' with
  | true =>
    have := hasKey_iff.mp h1
    rw [← hmap] at this
    exact hasKey_iff.mpr this
  | false =>
    cases h2 : hasKey (setKey g k c) k' with
    | false => rfl
    | true =>
      have h3 := hasKey_iff.mp h2
      rw [hmap] at h3
      rw [hasKey_iff.mpr h3] at h1
      exact h1

theorem nodupKeys_setKey {g : List (String × CanonicalValue)} {k : String}
    {c : CanonicalValue} (hnd : nodupKeys g = true) :
    nodupKeys (setKey g k c) = true := by
  rw [nodupKeys_iff, map_fst_setKey]
  exact nodupKeys_iff.mp hnd

/-! ### Inverse round trip: sequences -/

theorem inv_seq :
    ∀ (xs ys pre : List CanonicalValue),
      (∀ x y, x ∈ xs → y ∈ ys →
        ∃ c, ((diff false x y).reverse.map invertOp).foldlM applyOp y = .ok c ∧
          cvEquiv c x = true) →
      ∃ zs, ((diffSeq false pre.length xs ys).reverse.map invertOp).foldlM
          applyOp (.sequence (pre ++ ys)) = .ok (.sequence (pre ++ zs)) ∧
        seqEquiv zs xs = true := by
  intro xs
  induction xs with
  | nil =>
    intro ys
    induction ys with
    | nil =>
      intro pre _
      refine ⟨[], ?_, by rw [seqEquiv]⟩
      rw [diffSeq]
      simp [pure, Except.pure]
    | cons y ys ihy =>
      intro pre _
      rw [diffSeq, List.reverse_cons, List.map_append, List.foldlM_append]
      obtain ⟨zs, hfold, hequiv⟩ := ihy (pre ++ [y]) (by intro x y' hx _; simp at hx)
      have hzs : zs = [] := seqEquiv_nil_right hequiv
      subst hzs
      have hlen : (pre ++ [y]).length = pre.length + 1 := by simp
      rw [hlen] at hfold
      rw [show pre ++ y :: ys = (pre ++ [y]) ++ ys by simp, hfold]
      have hget : (pre ++ [y])[pre.length]? = some y := by
        have := getElem?_append_cons pre [] y
        simpa using this
      have hdel : delIdx (pre ++ [y]) pre.length = pre := by
        have := delIdx_append_cons pre [] y
        simpa using this
      have hrem : applyOp (.sequence (pre ++ [y]))
          (.itemRemoved [.index pre.length] y none) = .ok (.sequence pre) := by
        simp [applyOp, removeAt, hget, hdel]
      refine ⟨[], ?_, by rw [seqEquiv]⟩
      simp only [List.append_nil, Bind.bind, Except.bind, List.map_cons,
        List.map_nil, invertOp, List.foldlM_cons, List.foldlM_nil, hrem]
      simp [pure, Except.pure]
  | cons x xs ihx =>
    intro ys pre ihm
    cases ys with
    | nil =>
      rw [diffSeq, List.reverse_append, List.map_append, List.foldlM_append]
      have hins : applyOp (.sequence (pre ++ []))
          (invertOp (.itemRemoved [.index pre.length] x none)) =
            .ok (.sequence (pre ++ [x])) := by
        have hip : insIdx pre pre.length x = pre ++ [x] := by
          simpa using insIdx_append pre [] x
        simp [invertOp, applyOp, insertAt, hip]
      obtain ⟨zs, hfold, hequiv⟩ := ihx [] (pre ++ [x])
        (by intro x' y' _ hy; simp at hy)
      have hlen : (pre ++ [x]).length = pre.length + 1 := by simp
      rw [hlen] at hfold
      simp only [List.append_nil] at hfold
      refine ⟨x :: zs, ?_, ?_⟩
      · simp only [List.reverse_cons, List.reverse_nil, List.nil_append,
          List.map_cons, List.map_nil, List.foldlM_cons, List.foldlM_nil, hins,
          Bind.bind, Except.bind]
        simp only [pure, Except.pure]
        rw [hfold]
        simp
      · rw [seqEquiv]
        simp [cvEquiv_refl, hequiv]
    | cons y ys =>
      rw [diffSeq, List.reverse_append, List.map_append, List.foldlM_append]
      obtain ⟨zs, hfold, hequiv⟩ := ihx ys (pre ++ [y])
        (fun x' y' hx hy => ihm x' y' (by simp [hx]) (by simp [hy]))
      have hlen : (pre ++ [y]).length = pre.length + 1 := by simp
      rw [hlen] at hfold
      have hstate : (pre ++ [y]) ++ ys = pre ++ y :: ys := by simp
      rw [hstate] at hfold
      rw [hfold]
      simp only [Bind.bind, Except.bind]
      rw [rev_inv_map_prepend]
      obtain ⟨c, hc, hcx⟩ := ihm x y (by simp) (by simp)
      have hget : (pre ++ y :: zs)[pre.length]? = some y := getElem?_append_cons pre zs y
      rw [show (pre ++ [y]) ++ zs = pre ++ y :: zs by simp,
        foldFrame_index (mem_rev_inv_shaped (fun o ho => diff_shaped ho)) hget, hc]
      simp only [Except.map]
      rw [setIdx_append_cons]
      refine ⟨c :: zs, rfl, ?_⟩
      rw [seqEquiv]
      simp [hcx, hequiv]

/-! ### Inverse round trip: records -/

theorem inv_recAdd (fa : List (String × CanonicalValue)) :
    ∀ (fbtodo keep : List (String × CanonicalValue)),
      nodupKeys (fbtodo ++ keep) = true →
      ((diffRecAdded fa fbtodo).reverse.map invertOp).foldlM applyOp
          (.record (fbtodo ++ keep)) =
        .ok (.record (fbtodo.filter (fun e => hasKey fa e.1) ++ keep)) := by
  intro fbtodo
  induction fbtodo using List.reverseRecOn with
  | nil =>
    intro keep _
    rw [diffRecAdded]
    simp [pure, Except.pure]
  | append_singleton front e ihf =>
    intro keep hnd
    obtain ⟨k, vb⟩ := e
    rw [diffRecAdded_append, List.reverse_append, List.map_append,
      List.foldlM_append]
    have hnd' : nodupKeys (front ++ (k, vb) :: keep) = true := by
      simpa using hnd
    obtain ⟨hkfront, hkkeep, hndfk⟩ := nodupKeys_middle hnd'
    cases hk : hasKey fa k with
    | true =>
      have hone : diffRecAdded fa [(k, vb)] = [] := by
        rw [diffRecAdded]
        simp [hk]
      rw [hone]
      simp only [List.reverse_nil, List.map_nil, List.foldlM_nil, pure,
        Except.pure, Bind.bind, Except.bind]
      rw [show (front ++ [(k, vb)]) ++ keep = front ++ ((k, vb) :: keep) by simp]
      rw [ihf ((k, vb) :: keep) hnd']
      rw [List.filter_append]
      simp [List.filter_cons, hk]
    | false =>
      have hone : diffRecAdded fa [(k, vb)] = [.itemAdded [.key k] vb none] := by
        rw [diffRecAdded]
        simp [hk]
      rw [hone]
      have hlook : lookupKey (front ++ (k, vb) :: keep) k = some vb := by
        rw [lookupKey_append_right hkfront]
        simp [lookupKey]
      have hremk : removeKey (front ++ (k, vb) :: keep) k = front ++ keep := by
        rw [removeKey_append_left hkfront]
        simp [removeKey]
      have hrem : applyOp (.record (front ++ (k, vb) :: keep))
          (.itemRemoved [.key k] vb none) = .ok (.record (front ++ keep)) := by
        simp [applyOp, removeAt, hlook, hremk]
      rw [show (front ++ [(k, vb)]) ++ keep = front ++ ((k, vb) :: keep) by simp]
      simp only [List.reverse_cons, List.reverse_nil, List.nil_append,
        List.map_cons, List.map_nil, invertOp, List.foldlM_cons,
        List.foldlM_nil, hrem, Bind.bind, Except.bind, pure, Except.pure]
      rw [ihf keep hndfk, List.filter_append]
      simp [List.filter_cons, hk]

theorem lookupKey_append_left_of_hasKey {fs gs : List (String × CanonicalValue)}
    {k : String} (h : hasKey fs k = true) :
    lookupKey (fs ++ gs) k = lookupKey fs k := by
  unfold hasKey at h
  cases hl : lookupKey fs k
  · rw [hl] at h; simp at h
  · rw [lookupKey_append, hl]

theorem inv_recA (fb : List (String × CanonicalValue)) :
    ∀ (fatodo g : List (String × CanonicalValue)),
      nodupKeys fatodo = true → nodupKeys g = true →
      (∀ k va, lookupKey fatodo k = some va →
        ((∀ vb, lookupKey fb k = some vb → lookupKey g k = some vb) ∧
         (lookupKey fb k = none → hasKey g k = false))) →
      (∀ k va vb, (k, va) ∈ fatodo → lookupKey fb k = some vb →
        ∃ c, ((diff false va vb).reverse.map invertOp).foldlM applyOp vb =
          .ok c ∧ cvEquiv c va = true) →
      ∃ g', ((diffRecA false fatodo fb).reverse.map invertOp).foldlM applyOp
          (.record g) = .ok (.record g') ∧
        nodupKeys g' = true ∧
        (∀ k va, lookupKey fatodo k = some va →
          ∃ c, lookupKey g' k = some c ∧ cvEquiv c va = true) ∧
        (∀ k, hasKey fatodo k = false → lookupKey g' k = lookupKey g k) ∧
        g'.length = g.length + (fatodo.filter (fun e => !hasKey fb e.1)).length ∧
        (∀ k, hasKey g' k = (hasKey g k || hasKey fatodo k)) := by
  intro fatodo
  induction fatodo using List.reverseRecOn with
  | nil =>
    intro g hnda hndg hg ihm
    refine ⟨g, ?_, hndg, ?_, ?_, ?_, ?_⟩
    · rw [diffRecA]
      simp [pure, Except.pure]
    · intro k va hva
      simp [lookupKey] at hva
    · intro k _
      rfl
    · simp
    · intro k
      simp [hasKey, lookupKey]
  | append_singleton front e ihf =>
    intro g hnda hndg hg ihm
    obtain ⟨k, va⟩ := e
    have hnda' : nodupKeys (front ++ (k, va) :: []) = true := by simpa using hnda
    obtain ⟨hkfront, _, hndfront'⟩ := nodupKeys_middle hnda'
    have hndfront : nodupKeys front = true := by simpa using hndfront'
    have hlookfa : lookupKey (front ++ [(k, va)]) k = some va := by
      rw [lookupKey_append_right hkfront]
      simp [lookupKey]
    have hfrontlook : ∀ k0 va0, lookupKey front k0 = some va0 →
        lookupKey (front ++ [(k, va)]) k0 = some va0 := by
      intro k0 va0 h0
      exact lookupKey_append_left h0
    have hkne : ∀ k0, hasKey front k0 = true → k0 ≠ k := by
      intro k0 h0 hk0
      subst hk0
      rw [h0] at hkfront
      exact absurd hkfront (by simp)
    rw [diffRecA_append, List.reverse_append, List.map_append,
      List.foldlM_append]
    cases hvb : lookupKey fb k with
    | some vb =>
      have hblock : diffRecA false [(k, va)] fb =
          (diff false va vb).map (prependOp [.key k]) := by
        rw [diffRecA, hvb, diffRecA]
        simp
      have hlookg : lookupKey g k = some vb := (hg k va hlookfa).1 vb hvb
      obtain ⟨c, hc, hcva⟩ := ihm k va vb (by simp) hvb
      rw [hblock, rev_inv_map_prepend,
        foldFrame_key (mem_rev_inv_shaped (fun o ho => diff_shaped ho)) hlookg,
        hc]
      simp only [Except.map, Bind.bind, Except.bind]
      have hndg1 : nodupKeys (setKey g k c) = true := nodupKeys_setKey hndg
      have hg1 : ∀ k0 va0, lookupKey front k0 = some va0 →
          ((∀ vb0, lookupKey fb k0 = some vb0 →
            lookupKey (setKey g k c) k0 = some vb0) ∧
           (lookupKey fb k0 = none → hasKey (setKey g k c) k0 = false)) := by
        intro k0 va0 h0
        have hne : k0 ≠ k := hkne k0 (by unfold hasKey; rw [h0]; rfl)
        have hga := hg k0 va0 (hfrontlook k0 va0 h0)
        constructor
        · intro vb0 hvb0
          rw [lookupKey_setKey_ne hne]
          exact hga.1 vb0 hvb0
        · intro hnone
          rw [hasKey_setKey]
          exact hga.2 hnone
      obtain ⟨g', hfold, hnd', hres', hother', hlen', hkeys'⟩ :=
        ihf (setKey g k c) hndfront hndg1 hg1
          (fun k0 va0 vb0 hm hv => ihm k0 va0 vb0 (by simp [hm]) hv)
      refine ⟨g', hfold, hnd', ?_, ?_, ?_, ?_⟩
      · intro k0 va0 hva0
        cases hfk : hasKey front k0 with
        | true =>
          rw [lookupKey_append_left_of_hasKey hfk] at hva0
          exact hres' k0 va0 hva0
        | false =>
          rw [lookupKey_append_right hfk] at hva0
          simp [lookupKey] at hva0
          obtain ⟨hkk, hvv⟩ := hva0
          subst hkk
          subst hvv
          have h1 : lookupKey g' k = lookupKey (setKey g k c) k := hother' k hfk
          rw [lookupKey_setKey_self hlookg] at h1
          exact ⟨c, h1, hcva⟩
      · intro k0 h0
        rw [hasKey_append] at h0
        have h1 : hasKey front k0 = false := by
          cases hh : hasKey front k0
          · rfl
          · rw [hh] at h0; simp at h0
        have h2 : hasKey [(k, va)] k0 = false := by
          cases hh : hasKey [(k, va)] k0
          · rfl
          · rw [hh, h1] at h0; simp at h0
        have hne : k0 ≠ k := by
          intro hk0
          subst hk0
          simp [hasKey, lookupKey] at h2
        rw [hother' k0 h1, lookupKey_setKey_ne hne]
      · rw [hlen', length_setKey, List.filter_append]
        have : hasKey fb k = true := by unfold hasKey; rw [hvb]; rfl
        simp [List.filter_cons, this]
      · intro k0
        rw [hkeys' k0, hasKey_setKey, hasKey_append]
        by_cases hk0 : k0 = k
        · subst hk0
          have : hasKey g k0 = true := by unfold hasKey; rw [hlookg]; rfl
          simp [this]
        · have : hasKey [(k, va)] k0 = false := by
            have hne : ¬(k = k0) := fun h => hk0 h.symm
            simp [hasKey, lookupKey, hne]
          rw [this]
          simp
    | none =>
      have hblock : diffRecA false [(k, va)] fb =
          [.itemRemoved [.key k] va none] := by
        rw [diffRecA, hvb, diffRecA]
        simp
      have hgk : hasKey g k = false := (hg k va hlookfa).2 hvb
      have hins : applyOp (.record g) (.itemAdded [.key k] va none) =
          .ok (.record (g ++ [(k, va)])) := by
        simp [applyOp, insertAt, hgk]
      rw [hblock]
      simp only [List.reverse_cons, List.reverse_nil, List.nil_append,
        List.map_cons, List.map_nil, invertOp, List.foldlM_cons,
        List.foldlM_nil, hins, Bind.bind, Except.bind, pure, Except.pure]
      have hndg1 : nodupKeys (g ++ [(k, va)]) = true := nodupKeys_snoc hndg hgk
      have hg1 : ∀ k0 va0, lookupKey front k0 = some va0 →
          ((∀ vb0, lookupKey fb k0 = some vb0 →
            lookupKey (g ++ [(k, va)]) k0 = some vb0) ∧
           (lookupKey fb k0 = none → hasKey (g ++ [(k, va)]) k0 = false)) := by
        intro k0 va0 h0
        have hne : k0 ≠ k := hkne k0 (by unfold hasKey; rw [h0]; rfl)
        have hga := hg k0 va0 (hfrontlook k0 va0 h0)
        constructor
        · intro vb0 hvb0
          rw [lookupKey_snoc_ne hne]
          exact hga.1 vb0 hvb0
        · intro hnone
          rw [hasKey_append]
          have h1 := hga.2 hnone
          have h2 : hasKey [(k, va)] k0 = false := by
            have hne' : ¬(k = k0) := fun h => hne h.symm
            simp [hasKey, lookupKey, hne']
          rw [h1, h2]
          rfl
      obtain ⟨g', hfold, hnd', hres', hother', hlen', hkeys'⟩ :=
        ihf (g ++ [(k, va)]) hndfront hndg1 hg1
          (fun k0 va0 vb0 hm hv => ihm k0 va0 vb0 (by simp [hm]) hv)
      refine ⟨g', hfold, hnd', ?_, ?_, ?_, ?_⟩
      · intro k0 va0 hva0
        cases hfk : hasKey front k0 with
        | true =>
          rw [lookupKey_append_left_of_hasKey hfk] at hva0
          exact hres' k0 va0 hva0
        | false =>
          rw [lookupKey_append_right hfk] at hva0
          simp [lookupKey] at hva0
          obtain ⟨hkk, hvv⟩ := hva0
          subst hkk
          subst hvv
          have h1 : lookupKey g' k = lookupKey (g ++ [(k, va)]) k := hother' k hfk
          rw [lookupKey_append_right hgk] at h1
          simp [lookupKey] at h1
          exact ⟨va, h1, cvEquiv_refl va⟩
      · intro k0 h0
        rw [hasKey_append] at h0
        have h1 : hasKey front k0 = false := by
          cases hh : hasKey front k0
          · rfl
          · rw [hh] at h0; simp at h0
        have h2 : hasKey [(k, va)] k0 = false := by
          cases hh : hasKey [(k, va)] k0
          · rfl
          · rw [hh, h1] at h0; simp at h0
        have hne : k0 ≠ k := by
          intro hk0
          subst hk0
          simp [hasKey, lookupKey] at h2
        rw [hother' k0 h1, lookupKey_snoc_ne hne]
      · rw [hlen', List.length_append, List.filter_append]
        have : hasKey fb k = false := by unfold hasKey; rw [hvb]; rfl
        simp [List.filter_cons, this]
        omega
      · intro k0
        rw [hkeys' k0, hasKey_append, hasKey_append]
        cases hasKey g k0 <;> cases hasKey front k0 <;>
          cases hasKey [(k, va)] k0 <;> simp

theorem inv_aux (n : Nat) :
    ∀ a b : CanonicalValue, sizeOf a + sizeOf b ≤ n →
      WFv a = true → WFv b = true →
      ∃ c, ((diff false a b).reverse.map invertOp).foldlM applyOp b = .ok c ∧
        cvEquiv c a = true := by
  induction n with
  | zero => intro a b h; cases a <;> simp at h
  | succ n ih =>
    have hdefault : ∀ a b : CanonicalValue,
        diff false a b = [.valueChanged [] a b] →
        ∃ c, ((diff false a b).reverse.map invertOp).foldlM applyOp b = .ok c ∧
          cvEquiv c a = true := by
      intro a b hd
      refine ⟨a, ?_, cvEquiv_refl a⟩
      rw [hd]
      simp [invertOp, applyOp, replaceAt, pure, Except.pure, Bind.bind,
        Except.bind]
    intro a b hsz hwa hwb
    cases a with
    | scalar s =>
      cases b with
      | scalar t =>
        by_cases hst : s = t
        · subst hst
          refine ⟨.scalar s, ?_, by rw [cvEquiv]; simp⟩
          rw [diff]
          simp [pure, Except.pure]
        · exact hdefault _ _ (by rw [diff]; simp [hst])
      | sequence ys => exact hdefault _ _ (by simp only [diff])
      | record fb => exact hdefault _ _ (by simp only [diff])
    | sequence xs =>
      cases b with
      | scalar t => exact hdefault _ _ (by simp only [diff])
      | sequence ys =>
        have hxs : WFlist xs = true := by rw [WFv] at hwa; exact hwa
        have hys : WFlist ys = true := by rw [WFv] at hwb; exact hwb
        obtain ⟨zs, hfold, hequiv⟩ := inv_seq xs ys []
          (by
            intro x y hx hy
            refine ih x y ?_ (WFlist_mem hxs hx) (WFlist_mem hys hy)
            have h1 := List.sizeOf_lt_of_mem hx
            have h2 := List.sizeOf_lt_of_mem hy
            simp at hsz
            omega)
        refine ⟨.sequence zs, ?_, by rw [cvEquiv]; exact hequiv⟩
        rw [diff]
        simpa using hfold
      | record fb => exact hdefault _ _ (by simp only [diff])
    | record fa =>
      cases b with
      | scalar t => exact hdefault _ _ (by simp only [diff])
      | sequence ys => exact hdefault _ _ (by simp only [diff])
      | record fb =>
        have hnda' := WF_record_nodup hwa
        have hndb' := WF_record_nodup hwb
        have hnda : nodupKeys fa = true := hnda'
        have hndb : nodupKeys fb = true := hndb'
        have hfka := WF_record_fields hwa
        have hfkb := WF_record_fields hwb
        have h0 := inv_recAdd fa fb [] (by simpa using hndb)
        simp only [List.append_nil] at h0
        have hndg0 : nodupKeys (fb.filter (fun e => hasKey fa e.1)) = true := by
          rw [nodupKeys_iff, map_fst_filter (fun k => hasKey fa k)]
          exact (nodupKeys_iff.mp hndb).filter _
        have hg : ∀ k va, lookupKey fa k = some va →
            ((∀ vb, lookupKey fb k = some vb →
              lookupKey (fb.filter (fun e => hasKey fa e.1)) k = some vb) ∧
             (lookupKey fb k = none →
              hasKey (fb.filter (fun e => hasKey fa e.1)) k = false)) := by
          intro k va hva
          have hka : hasKey fa k = true := by unfold hasKey; rw [hva]; rfl
          constructor
          · intro vb hvb
            rw [lookupKey_filter hndb, hvb]
            simp [hka]
          · intro hnone
            unfold hasKey
            rw [lookupKey_filter hndb, hnone]
            rfl
        obtain ⟨g', hfold, hnd', hres', _, hlen', hkeys'⟩ :=
          inv_recA fb fa (fb.filter (fun e => hasKey fa e.1)) hnda hndg0 hg
            (by
              intro k va vb hm hv
              refine ih va vb ?_ (WFfields_mem hfka hm)
                (WFfields_mem hfkb (mem_of_lookupKey hv))
              have h1 := List.sizeOf_lt_of_mem hm
              have h2 := lookupKey_sizeOf fb k vb hv
              simp at hsz h1
              omega)
        refine ⟨.record g', ?_, ?_⟩
        · rw [diff, List.reverse_append, List.map_append, List.foldlM_append,
            h0]
          simp only [Bind.bind, Except.bind]
          exact hfold
        · have hlen : g'.length = fa.length := by
            have l1 := filter_common_length hnda hndb
            have l2 := filter_partition_length (fun e => hasKey fb e.1) fa
            rw [hlen']
            omega
          have hpair : ∀ k, hasKey fa k = true →
              ∃ v w, lookupKey g' k = some v ∧ lookupKey fa k = some w ∧
                cvEquiv v w = true := by
            intro k hka
            obtain ⟨va, hva⟩ : ∃ va, lookupKey fa k = some va := by
              unfold hasKey at hka
              cases hl : lookupKey fa k
              · rw [hl] at hka; simp at hka
              · exact ⟨_, rfl⟩
            obtain ⟨c, hc, hcva⟩ := hres' k va hva
            exact ⟨c, va, hc, hva, hcva⟩
          refine cvEquiv_record_intro hlen ?_ ?_
          · intro e he
            obtain ⟨k0, v0⟩ := e
            have hlg : lookupKey g' k0 = some v0 := lookupKey_of_mem_nodup hnd' he
            have hkg : hasKey g' k0 = true := by unfold hasKey; rw [hlg]; rfl
            have hka : hasKey fa k0 = true := by
              have h1 := hkeys' k0
              rw [hkg] at h1
              cases hfa : hasKey fa k0
              · rw [hfa] at h1
                simp at h1
                unfold hasKey at h1 hfa
                rw [lookupKey_filter hndb] at h1
                cases hl : lookupKey fb k0
                · rw [hl] at h1; simp at h1
                · rw [hl] at h1; simp [hfa] at h1
              · rfl
            exact hpair k0 hka
          · intro e he
            have hka : hasKey fa e.1 = true := by
              unfold hasKey
              rw [lookupKey_of_mem_nodup hnda he]
              rfl
            exact hpair e.1 hka

/-- C1: for every pair of well-formed CanonicalValue snapshots A and B,
building a Delta from `diff(A, B)` and calling `apply_inverse` on B succeeds
and returns a value structurally equal to A (spec §3 structural equality:
record key order is not semantically significant). -/
theorem c1_round_trip_inverse (a b : CanonicalValue)
    (ha : WFv a = true) (hb : WFv b = true) :
    ∃ c, Delta.applyInverse ⟨diff false a b⟩ b = .ok c ∧ cvEquiv c a = true :=
  inv_aux (sizeOf a + sizeOf b) a b (Nat.le_refl _) ha hb

/-- Witness for C1 at the notebook's snapshots. -/
theorem c1_round_trip_inverse_witness :
    ∃ c, Delta.applyInverse ⟨diff false carDumpV1 carDumpV2⟩ carDumpV2 =
        .ok c ∧ cvEquiv c carDumpV1 = true :=
  c1_round_trip_inverse carDumpV1 carDumpV2 (by decide) (by decide)

/-! ### Conflict detection (C4): divergence at a changed path never passes
silently.  The differ in sensitive mode emits operations whose paths, before
any `valueChanged`, diverge from that `valueChanged`'s path; applying such an
operation cannot disturb the value the `valueChanged` is about to check, so a
divergent current value is always caught (as `conflict` when the path
resolves at check time, as `pathError` when navigation fails earlier). -/

/-- The path an operation is anchored at. -/
def opPath : Operation → Path
  | .valueChanged p _ _ => p
  | .itemAdded p _ _ => p
  | .itemRemoved p _ _ => p

/-- Sensitive-mode operations never carry a repetition count. -/
def opNoCount : Operation → Prop
  | .valueChanged _ _ _ => True
  | .itemAdded _ _ c => c = none
  | .itemRemoved _ _ c => c = none

theorem prependOp_noCount {p : Path} {op : Operation} (h : opNoCount op) :
    opNoCount (prependOp p op) := by
  cases op <;> simpa [opNoCount, prependOp] using h

theorem diffSeq_noCount :
    ∀ (xs ys : List CanonicalValue) (i : Nat) (op : Operation),
      (∀ x y op', x ∈ xs → y ∈ ys → op' ∈ diff false x y → opNoCount op') →
      op ∈ diffSeq false i xs ys → opNoCount op := by
  intro xs
  induction xs with
  | nil =>
    intro ys
    induction ys with
    | nil => intro i op _ h; rw [diffSeq] at h; simp at h
    | cons y ys ihy =>
      intro i op hel h
      rw [diffSeq] at h
      rcases List.mem_cons.mp h with rfl | h
      · trivial
      · exact ihy (i + 1) op (fun x y op' hx hy => hel x y op' hx (by simp [hy]))
          h
  | cons x xs ihx =>
    intro ys i op hel h
    cases ys with
    | nil =>
      rw [diffSeq] at h
      rcases List.mem_append.mp h with h | h
      · exact ihx [] (i + 1) op (fun x' y' op' hx hy => by simp at hy) h
      · simp at h
        subst h
        trivial
    | cons y ys =>
      rw [diffSeq] at h
      rcases List.mem_append.mp h with h | h
      · rcases List.mem_map.mp h with ⟨op', hmem, rfl⟩
        exact prependOp_noCount (hel x y op' (by simp) (by simp) hmem)
      · exact ihx ys (i + 1) op
          (fun x' y' op' hx hy => hel x' y' op' (by simp [hx]) (by simp [hy])) h

theorem diffRecA_noCount (fb : List (String × CanonicalValue)) :
    ∀ (todo : List (String × CanonicalValue)) (op : Operation),
      (∀ k va vb op', (k, va) ∈ todo → lookupKey fb k = some vb →
        op' ∈ diff false va vb → opNoCount op') →
      op ∈ diffRecA false todo fb → opNoCount op := by
  intro todo
  induction todo with
  | nil => intro op _ h; rw [diffRecA] at h; simp at h
  | cons e rest ih =>
    intro op hel h
    obtain ⟨k, va⟩ := e
    rw [diffRecA] at h
    rcases List.mem_append.mp h with h | h
    · cases hvb : lookupKey fb k with
      | some vb =>
        rw [hvb] at h
        simp only at h
        rcases List.mem_map.mp h with ⟨op', hmem, rfl⟩
        exact prependOp_noCount (hel k va vb op' (by simp) hvb hmem)
      | none =>
        rw [hvb] at h
        simp only [List.mem_singleton] at h
        subst h
        trivial
    · exact ih op
        (fun k' va' vb' op' hm hv => hel k' va' vb' op' (by simp [hm]) hv) h

theorem diffRecAdded_mem_add {fa fb : List (String × CanonicalValue)}
    {op : Operation} (h : op ∈ diffRecAdded fa fb) :
    ∃ k v, op = .itemAdded [.key k] v none := by
  rw [diffRecAdded] at h
  rcases List.mem_filterMap.mp h with ⟨e, _, he⟩
  by_cases hk : hasKey fa e.1 <;> simp [hk] at he
  exact ⟨e.1, e.2, he.symm⟩

theorem diff_noCount_aux (n : Nat) :
    ∀ a b op, sizeOf a + sizeOf b ≤ n → op ∈ diff false a b → opNoCount op := by
  induction n with
  | zero => intro a b op h; cases a <;> simp at h
  | succ n ih =>
    intro a b op hsz h
    cases a with
    | scalar s =>
      cases b with
      | scalar t =>
        rw [diff] at h
        by_cases hst : s = t <;> simp [hst] at h
        subst h
        trivial
      | sequence ys => simp only [diff] at h; simp at h; subst h; trivial
      | record fb => simp only [diff] at h; simp at h; subst h; trivial
    | sequence xs =>
      cases b with
      | scalar t => simp only [diff] at h; simp at h; subst h; trivial
      | sequence ys =>
        rw [diff] at h
        simp only [Bool.false_eq_true, if_false] at h
        refine diffSeq_noCount xs ys 0 op ?_ h
        intro x y op' hx hy hop'
        refine ih x y op' ?_ hop'
        have h1 := List.sizeOf_lt_of_mem hx
        have h2 := List.sizeOf_lt_of_mem hy
        simp at hsz
        omega
      | record fb => simp only [diff] at h; simp at h; subst h; trivial
    | record fa =>
      cases b with
      | scalar t => simp only [diff] at h; simp at h; subst h; trivial
      | sequence ys => simp only [diff] at h; simp at h; subst h; trivial
      | record fb =>
        rw [diff] at h
        rcases List.mem_append.mp h with h | h
        · refine diffRecA_noCount fb fa op ?_ h
          intro k va vb op' hm hv hop'
          refine ih va vb op' ?_ hop'
          have h1 := List.sizeOf_lt_of_mem hm
          have h2 := lookupKey_sizeOf fb k vb hv
          simp at hsz h1
          omega
        · obtain ⟨k, v, rfl⟩ := diffRecAdded_mem_add h
          trivial

theorem diff_false_noCount {a b : CanonicalValue} {op : Operation}
    (h : op ∈ diff false a b) : opNoCount op :=
  diff_noCount_aux (sizeOf a + sizeOf b) a b op (Nat.le_refl _) h

/-- `DivSafe f p q`: path `q` diverges from path `p` before either ends, so
an operation anchored at `q` cannot disturb the value at `p`.  At an index
divergence a terminal positional insertion/removal would shift `p`'s index,
so there `q` must continue (`f = true` marks a `valueChanged`, which only
replaces in place and is safe even when terminal). -/
inductive DivSafe (f : Bool) : Path → Path → Prop
  | keyDiv {a b : String} {p q : Path} (h : a ≠ b) :
      DivSafe f (.key a :: p) (.key b :: q)
  | idxDiv {i j : Nat} {p q : Path} (h : i ≠ j) (hq : f = true ∨ q ≠ []) :
      DivSafe f (.index i :: p) (.index j :: q)
  | same {s : PathStep} {p q : Path} (h : DivSafe f p q) :
      DivSafe f (s :: p) (s :: q)

theorem DivSafe_ne_nil {f : Bool} {p q : Path} (h : DivSafe f p q) :
    p ≠ [] ∧ q ≠ [] := by
  cases h <;> simp

/-- The operation at `q` cannot disturb the value at `p`. -/
def OpDiv (p : Path) : Operation → Prop
  | .valueChanged q _ _ => DivSafe true p q
  | .itemAdded q _ _ => DivSafe false p q
  | .itemRemoved q _ _ => DivSafe false p q

theorem OpDiv_prepend {p : Path} {s : PathStep} {op : Operation}
    (h : OpDiv p op) : OpDiv (s :: p) (prependOp [s] op) := by
  cases op with
  | valueChanged q o nw => exact DivSafe.same h
  | itemAdded q v c => exact DivSafe.same h
  | itemRemoved q v c => exact DivSafe.same h

theorem diffSeq_path_head :
    ∀ (xs ys : List CanonicalValue) (i : Nat) (op : Operation),
      op ∈ diffSeq false i xs ys →
      ∃ j q, opPath op = .index j :: q ∧ i ≤ j := by
  intro xs
  induction xs with
  | nil =>
    intro ys
    induction ys with
    | nil => intro i op h; rw [diffSeq] at h; simp at h
    | cons y ys ihy =>
      intro i op h
      rw [diffSeq] at h
      rcases List.mem_cons.mp h with rfl | h
      · exact ⟨i, [], rfl, Nat.le_refl i⟩
      · obtain ⟨j, q, h1, h2⟩ := ihy (i + 1) op h
        exact ⟨j, q, h1, by omega⟩
  | cons x xs ihx =>
    intro ys i op h
    cases ys with
    | nil =>
      rw [diffSeq] at h
      rcases List.mem_append.mp h with h | h
      · obtain ⟨j, q, h1, h2⟩ := ihx [] (i + 1) op h
        exact ⟨j, q, h1, by omega⟩
      · simp at h
        subst h
        exact ⟨i, [], rfl, Nat.le_refl i⟩
    | cons y ys =>
      rw [diffSeq] at h
      rcases List.mem_append.mp h with h | h
      · rcases List.mem_map.mp h with ⟨op', _, rfl⟩
        refine ⟨i, opPath op', ?_, Nat.le_refl i⟩
        cases op' <;> rfl
      · obtain ⟨j, q, h1, h2⟩ := ihx ys (i + 1) op h
        exact ⟨j, q, h1, by omega⟩

theorem diffRecA_path_head (fb : List (String × CanonicalValue)) :
    ∀ (todo : List (String × CanonicalValue)) (op : Operation),
      op ∈ diffRecA false todo fb →
      ∃ k q, opPath op = .key k :: q ∧ hasKey todo k = true := by
  intro todo
  induction todo with
  | nil => intro op h; rw [diffRecA] at h; simp at h
  | cons e rest ih =>
    intro op h
    obtain ⟨k, va⟩ := e
    rw [diffRecA] at h
    rcases List.mem_append.mp h with h | h
    · cases hvb : lookupKey fb k with
      | some vb =>
        rw [hvb] at h
        simp only at h
        rcases List.mem_map.mp h with ⟨op', _, rfl⟩
        refine ⟨k, opPath op', ?_, ?_⟩
        · cases op' <;> rfl
        · simp [hasKey, lookupKey]
      | none =>
        rw [hvb] at h
        simp only [List.mem_singleton] at h
        subst h
        exact ⟨k, [], rfl, by simp [hasKey, lookupKey]⟩
    · obtain ⟨k2, q, h1, h2⟩ := ih op h
      refine ⟨k2, q, h1, ?_⟩
      unfold hasKey at h2 ⊢
      simp only [lookupKey]
      by_cases hk : k = k2 <;> simp [hk, h2]

theorem diffSeq_left_novc :
    ∀ (xs : List CanonicalValue) (i : Nat) (p : Path) (o nw : CanonicalValue),
      .valueChanged p o nw ∉ diffSeq false i xs [] := by
  intro xs
  induction xs with
  | nil => intro i p o nw h; rw [diffSeq] at h; simp at h
  | cons x xs ih =>
    intro i p o nw h
    rw [diffSeq] at h
    rcases List.mem_append.mp h with h | h
    · exact ih (i + 1) p o nw h
    · simp at h

theorem diffSeq_right_novc :
    ∀ (ys : List CanonicalValue) (i : Nat) (p : Path) (o nw : CanonicalValue),
      .valueChanged p o nw ∉ diffSeq false i [] ys := by
  intro ys
  induction ys with
  | nil => intro i p o nw h; rw [diffSeq] at h; simp at h
  | cons y ys ih =>
    intro i p o nw h
    rw [diffSeq] at h
    rcases List.mem_cons.mp h with h | h
    · simp at h
    · exact ih (i + 1) p o nw h

theorem diffRecAdded_novc {fa fb : List (String × CanonicalValue)}
    {p : Path} {o nw : CanonicalValue} :
    .valueChanged p o nw ∉ diffRecAdded fa fb := by
  intro h
  obtain ⟨k, v, he⟩ := diffRecAdded_mem_add h
  simp at he

theorem getAt_fresh (q : Path) (cnt : Option Nat) {p : Path} (hp : p ≠ []) :
    getAt (freshContainer q cnt) p = none := by
  cases p with
  | nil => exact absurd rfl hp
  | cons s p' =>
    cases q with
    | nil => cases s <;> simp [freshContainer, getAt, List.getElem?_nil]
    | cons s2 q' =>
      cases s2 <;> cases s <;> simp [freshContainer, getAt, List.getElem?_nil,
        lookupKey]

theorem getAt_replaceAt_div {p q : Path} (h : DivSafe true p q) :
    ∀ C C' o nw, replaceAt C q o nw = .ok C' → getAt C' p = getAt C p := by
  induction h with
  | @keyDiv a b p₁ q₁ hab =>
    intro C C' o nw hap
    cases C with
    | scalar sc => simp [replaceAt] at hap
    | sequence xs => simp [replaceAt] at hap
    | record fs =>
      cases hlb : lookupKey fs b with
      | none => simp [replaceAt, hlb] at hap
      | some u =>
        simp only [replaceAt, hlb] at hap
        cases hru : replaceAt u q₁ o nw with
        | error e => rw [hru] at hap; simp [Except.map] at hap
        | ok u' =>
          rw [hru] at hap
          simp only [Except.map, Except.ok.injEq] at hap
          subst hap
          simp only [getAt, lookupKey_setKey_ne hab]
  | @idxDiv i j p₁ q₁ hij hq =>
    intro C C' o nw hap
    cases C with
    | scalar sc => simp [replaceAt] at hap
    | record fs => simp [replaceAt] at hap
    | sequence xs =>
      cases hxj : xs[j]? with
      | none => simp [replaceAt, hxj] at hap
      | some u =>
        simp only [replaceAt, hxj] at hap
        cases hru : replaceAt u q₁ o nw with
        | error e => rw [hru] at hap; simp [Except.map] at hap
        | ok u' =>
          rw [hru] at hap
          simp only [Except.map, Except.ok.injEq] at hap
          subst hap
          simp only [getAt]
          rw [getElem?_setIdx_ne hij]
  | @same s p₁ q₁ hd ih =>
    intro C C' o nw hap
    cases s with
    | key k =>
      cases C with
      | scalar sc => simp [replaceAt] at hap
      | sequence xs => simp [replaceAt] at hap
      | record fs =>
        cases hlk : lookupKey fs k with
        | none => simp [replaceAt, hlk] at hap
        | some u =>
          simp only [replaceAt, hlk] at hap
          cases hru : replaceAt u q₁ o nw with
          | error e => rw [hru] at hap; simp [Except.map] at hap
          | ok u' =>
            rw [hru] at hap
            simp only [Except.map, Except.ok.injEq] at hap
            subst hap
            simp only [getAt, lookupKey_setKey_self hlk, hlk]
            exact ih u u' o nw hru
    | index i =>
      cases C with
      | scalar sc => simp [replaceAt] at hap
      | record fs => simp [replaceAt] at hap
      | sequence xs =>
        cases hxi : xs[i]? with
        | none => simp [replaceAt, hxi] at hap
        | some u =>
          simp only [replaceAt, hxi] at hap
          cases hru : replaceAt u q₁ o nw with
          | error e => rw [hru] at hap; simp [Except.map] at hap
          | ok u' =>
            rw [hru] at hap
            simp only [Except.map, Except.ok.injEq] at hap
            subst hap
            simp only [getAt, getElem?_setIdx_self hxi, hxi]
            exact ih u u' o nw hru

theorem getAt_insertAt_div {p q : Path} (h : DivSafe false p q) :
    ∀ C C' x, insertAt C q x none = .ok C' → getAt C' p = getAt C p := by
  induction h with
  | @keyDiv a b p₁ q₁ hab =>
    intro C C' x hap
    cases q₁ with
    | nil =>
      cases C with
      | scalar sc => simp [insertAt] at hap
      | sequence xs => simp [insertAt] at hap
      | record fs =>
        simp only [insertAt] at hap
        by_cases hk : hasKey fs b
        · rw [if_pos hk] at hap
          simp at hap
        · rw [if_neg hk] at hap
          simp only [Except.ok.injEq] at hap
          subst hap
          simp only [getAt, lookupKey_snoc_ne hab]
    | cons s2 q₂ =>
      cases C with
      | scalar sc => simp [insertAt] at hap
      | sequence xs => simp [insertAt] at hap
      | record fs =>
        cases hlb : lookupKey fs b with
        | some u =>
          simp only [insertAt, hlb] at hap
          cases hru : insertAt u (s2 :: q₂) x none with
          | error e => rw [hru] at hap; simp [Except.map] at hap
          | ok u' =>
            rw [hru] at hap
            simp only [Except.map, Except.ok.injEq] at hap
            subst hap
            simp only [getAt, lookupKey_setKey_ne hab]
        | none =>
          simp only [insertAt, hlb] at hap
          cases hru : insertAt (freshContainer (s2 :: q₂) none) (s2 :: q₂) x
              none with
          | error e => rw [hru] at hap; simp [Except.map] at hap
          | ok u' =>
            rw [hru] at hap
            simp only [Except.map, Except.ok.injEq] at hap
            subst hap
            simp only [getAt, lookupKey_snoc_ne hab]
  | @idxDiv i j p₁ q₁ hij hq =>
    intro C C' x hap
    have hq' : q₁ ≠ [] := by
      rcases hq with hf | hne
      · exact absurd hf (by simp)
      · exact hne
    obtain ⟨s2, q₂, rfl⟩ : ∃ s2 q₂, q₁ = s2 :: q₂ := by
      cases q₁ with
      | nil => exact absurd rfl hq'
      | cons s2 q₂ => exact ⟨s2, q₂, rfl⟩
    cases C with
    | scalar sc => simp [insertAt] at hap
    | record fs => simp [insertAt] at hap
    | sequence xs =>
      cases hxj : xs[j]? with
      | none => simp [insertAt, hxj] at hap
      | some u =>
        simp only [insertAt, hxj] at hap
        cases hru : insertAt u (s2 :: q₂) x none with
        | error e => rw [hru] at hap; simp [Except.map] at hap
        | ok u' =>
          rw [hru] at hap
          simp only [Except.map, Except.ok.injEq] at hap
          subst hap
          simp only [getAt]
          rw [getElem?_setIdx_ne hij]
  | @same s p₁ q₁ hd ih =>
    intro C C' x hap
    have hp' : p₁ ≠ [] := (DivSafe_ne_nil hd).1
    obtain ⟨s2, q₂, rfl⟩ : ∃ s2 q₂, q₁ = s2 :: q₂ := by
      cases hq : q₁ with
      | nil => exact absurd hq (DivSafe_ne_nil hd).2
      | cons s2 q₂ => exact ⟨s2, q₂, rfl⟩
    cases s with
    | key k =>
      cases C with
      | scalar sc => simp [insertAt] at hap
      | sequence xs => simp [insertAt] at hap
      | record fs =>
        cases hlk : lookupKey fs k with
        | some u =>
          simp only [insertAt, hlk] at hap
          cases hru : insertAt u (s2 :: q₂) x none with
          | error e => rw [hru] at hap; simp [Except.map] at hap
          | ok u' =>
            rw [hru] at hap
            simp only [Except.map, Except.ok.injEq] at hap
            subst hap
            simp only [getAt, lookupKey_setKey_self hlk, hlk]
            exact ih u u' x hru
        | none =>
          simp only [insertAt, hlk] at hap
          cases hru : insertAt (freshContainer (s2 :: q₂) none) (s2 :: q₂) x
              none with
          | error e => rw [hru] at hap; simp [Except.map] at hap
          | ok u' =>
            rw [hru] at hap
            simp only [Except.map, Except.ok.injEq] at hap
            subst hap
            have hfk : hasKey fs k = false := by unfold hasKey; rw [hlk]; rfl
            have h1 : lookupKey (fs ++ [(k, u')]) k = some u' := by
              rw [lookupKey_append_right hfk]
              simp [lookupKey]
            simp only [getAt, h1, hlk]
            rw [ih (freshContainer (s2 :: q₂) none) u' x hru]
            exact getAt_fresh (s2 :: q₂) none hp'
    | index i =>
      cases C with
      | scalar sc => simp [insertAt] at hap
      | record fs => simp [insertAt] at hap
      | sequence xs =>
        cases hxi : xs[i]? with
        | none => simp [insertAt, hxi] at hap
        | some u =>
          simp only [insertAt, hxi] at hap
          cases hru : insertAt u (s2 :: q₂) x none with
          | error e => rw [hru] at hap; simp [Except.map] at hap
          | ok u' =>
            rw [hru] at hap
            simp only [Except.map, Except.ok.injEq] at hap
            subst hap
            simp only [getAt, getElem?_setIdx_self hxi, hxi]
            exact ih u u' x hru

theorem getAt_removeAt_div {p q : Path} (h : DivSafe false p q) :
    ∀ C C' x, removeAt C q x none = .ok C' → getAt C' p = getAt C p := by
  induction h with
  | @keyDiv a b p₁ q₁ hab =>
    intro C C' x hap
    cases q₁ with
    | nil =>
      cases C with
      | scalar sc => simp [removeAt] at hap
      | sequence xs => simp [removeAt] at hap
      | record fs =>
        cases hlb : lookupKey fs b with
        | none => simp [removeAt, hlb] at hap
        | some u =>
          simp only [removeAt, hlb] at hap
          by_cases hux : u = x
          · rw [if_pos hux] at hap
            simp only [Except.ok.injEq] at hap
            subst hap
            simp only [getAt, lookupKey_removeKey_ne hab]
          · rw [if_neg hux] at hap
            simp at hap
    | cons s2 q₂ =>
      cases C with
      | scalar sc => simp [removeAt] at hap
      | sequence xs => simp [removeAt] at hap
      | record fs =>
        cases hlb : lookupKey fs b with
        | none => simp [removeAt, hlb] at hap
        | some u =>
          simp only [removeAt, hlb] at hap
          cases hru : removeAt u (s2 :: q₂) x none with
          | error e => rw [hru] at hap; simp [Except.map] at hap
          | ok u' =>
            rw [hru] at hap
            simp only [Except.map, Except.ok.injEq] at hap
            subst hap
            simp only [getAt, lookupKey_setKey_ne hab]
  | @idxDiv i j p₁ q₁ hij hq =>
    intro C C' x hap
    have hq' : q₁ ≠ [] := by
      rcases hq with hf | hne
      · exact absurd hf (by simp)
      · exact hne
    obtain ⟨s2, q₂, rfl⟩ : ∃ s2 q₂, q₁ = s2 :: q₂ := by
      cases q₁ with
      | nil => exact absurd rfl hq'
      | cons s2 q₂ => exact ⟨s2, q₂, rfl⟩
    cases C with
    | scalar sc => simp [removeAt] at hap
    | record fs => simp [removeAt] at hap
    | sequence xs =>
      cases hxj : xs[j]? with
      | none => simp [removeAt, hxj] at hap
      | some u =>
        simp only [removeAt, hxj] at hap
        cases hru : removeAt u (s2 :: q₂) x none with
        | error e => rw [hru] at hap; simp [Except.map] at hap
        | ok u' =>
          rw [hru] at hap
          simp only [Except.map, Except.ok.injEq] at hap
          subst hap
          simp only [getAt]
          rw [getElem?_setIdx_ne hij]
  | @same s p₁ q₁ hd ih =>
    intro C C' x hap
    obtain ⟨s2, q₂, rfl⟩ : ∃ s2 q₂, q₁ = s2 :: q₂ := by
      cases hq : q₁ with
      | nil => exact absurd hq (DivSafe_ne_nil hd).2
      | cons s2 q₂ => exact ⟨s2, q₂, rfl⟩
    cases s with
    | key k =>
      cases C with
      | scalar sc => simp [removeAt] at hap
      | sequence xs => simp [removeAt] at hap
      | record fs =>
        cases hlk : lookupKey fs k with
        | none => simp [removeAt, hlk] at hap
        | some u =>
          simp only [removeAt, hlk] at hap
          cases hru : removeAt u (s2 :: q₂) x none with
          | error e => rw [hru] at hap; simp [Except.map] at hap
          | ok u' =>
            rw [hru] at hap
            simp only [Except.map, Except.ok.injEq] at hap
            subst hap
            simp only [getAt, lookupKey_setKey_self hlk, hlk]
            exact ih u u' x hru
    | index i =>
      cases C with
      | scalar sc => simp [removeAt] at hap
      | record fs => simp [removeAt] at hap
      | sequence xs =>
        cases hxi : xs[i]? with
        | none => simp [removeAt, hxi] at hap
        | some u =>
          simp only [removeAt, hxi] at hap
          cases hru : removeAt u (s2 :: q₂) x none with
          | error e => rw [hru] at hap; simp [Except.map] at hap
          | ok u' =>
            rw [hru] at hap
            simp only [Except.map, Except.ok.injEq] at hap
            subst hap
            simp only [getAt, getElem?_setIdx_self hxi, hxi]
            exact ih u u' x hru

theorem applyOp_getAt_div {p : Path} {op : Operation} (hdiv : OpDiv p op)
    (hnc : opNoCount op) :
    ∀ C C', applyOp C op = .ok C' → getAt C' p = getAt C p := by
  cases op with
  | valueChanged q o nw =>
    intro C C' h
    exact getAt_replaceAt_div hdiv C C' o nw h
  | itemAdded q v c =>
    intro C C' h
    have hc : c = none := hnc
    subst hc
    exact getAt_insertAt_div hdiv C C' v h
  | itemRemoved q v c =>
    intro C C' h
    have hc : c = none := hnc
    subst hc
    exact getAt_removeAt_div hdiv C C' v h

theorem replaceAt_error_of_ne {w o : CanonicalValue} (hne : w ≠ o) :
    ∀ (p : Path) (C nw : CanonicalValue), getAt C p = some w →
      ∃ e, replaceAt C p o nw = .error e := by
  intro p
  induction p with
  | nil =>
    intro C nw hg
    simp only [getAt, Option.some.injEq] at hg
    subst hg
    refine ⟨.conflict, ?_⟩
    simp only [replaceAt]
    rw [if_neg hne]
  | cons s p' ih =>
    cases s with
    | key k =>
      intro C nw hg
      cases C with
      | scalar sc => simp [getAt] at hg
      | sequence xs => simp [getAt] at hg
      | record fs =>
        cases hlk : lookupKey fs k with
        | none => simp [getAt, hlk] at hg
        | some u =>
          simp only [getAt, hlk] at hg
          obtain ⟨e, he⟩ := ih u nw hg
          refine ⟨e, ?_⟩
          simp only [replaceAt, hlk, he, Except.map]
    | index i =>
      intro C nw hg
      cases C with
      | scalar sc => simp [getAt] at hg
      | record fs => simp [getAt] at hg
      | sequence xs =>
        cases hxi : xs[i]? with
        | none => simp [getAt, hxi] at hg
        | some u =>
          simp only [getAt, hxi] at hg
          obtain ⟨e, he⟩ := ih u nw hg
          refine ⟨e, ?_⟩
          simp only [replaceAt, hxi, he, Except.map]

/-- `vcSafe ops`: every operation placed before a `valueChanged` in `ops`
diverges from that `valueChanged`'s path, so applying the prefix cannot
disturb the value the `valueChanged` checks. -/
def vcSafe (ops : List Operation) : Prop :=
  ∀ l₁ p o nw l₂, ops = l₁ ++ .valueChanged p o nw :: l₂ → ∀ op ∈ l₁, OpDiv p op

theorem vcSafe_of_no_vc {ops : List Operation}
    (h : ∀ p o nw, .valueChanged p o nw ∉ ops) : vcSafe ops := by
  intro l₁ p o nw l₂ heq op hop
  exact absurd
    (heq ▸ List.mem_append.mpr (Or.inr (List.mem_cons_self _ _)))
    (h p o nw)

theorem vcSafe_singleton (op : Operation) : vcSafe [op] := by
  intro l₁ p o nw l₂ heq op' hop'
  cases l₁ with
  | nil => simp at hop'
  | cons a l₁' =>
    simp only [List.cons_append, List.cons.injEq] at heq
    have h2 := heq.2
    simp at h2

theorem map_prepend_split {s : PathStep} :
    ∀ (l l₁ l₂ : List Operation) (p : Path) (o nw : CanonicalValue),
      l.map (prependOp [s]) = l₁ ++ .valueChanged p o nw :: l₂ →
      ∃ m₁ q m₂, l = m₁ ++ .valueChanged q o nw :: m₂ ∧ p = s :: q ∧
        l₁ = m₁.map (prependOp [s]) := by
  intro l
  induction l with
  | nil =>
    intro l₁ l₂ p o nw heq
    simp at heq
  | cons a l ih =>
    intro l₁ l₂ p o nw heq
    cases l₁ with
    | nil =>
      simp only [List.map_cons, List.nil_append, List.cons.injEq] at heq
      obtain ⟨h1, _⟩ := heq
      cases a with
      | valueChanged q o' n' =>
        simp only [prependOp, Operation.valueChanged.injEq] at h1
        obtain ⟨hp, ho, hn⟩ := h1
        subst ho
        subst hn
        exact ⟨[], q, l, rfl, hp.symm, rfl⟩
      | itemAdded q v c => simp [prependOp] at h1
      | itemRemoved q v c => simp [prependOp] at h1
    | cons b l₁' =>
      simp only [List.map_cons, List.cons_append, List.cons.injEq] at heq
      obtain ⟨h1, h2⟩ := heq
      obtain ⟨m₁, q, m₂, hl, hp, hl₁⟩ := ih l₁' l₂ p o nw h2
      exact ⟨a :: m₁, q, m₂, by rw [hl, List.cons_append], hp,
        by rw [List.map_cons, hl₁, h1]⟩

theorem vcSafe_map_prepend {s : PathStep} {l : List Operation}
    (h : vcSafe l) : vcSafe (l.map (prependOp [s])) := by
  intro l₁ p o nw l₂ heq op hop
  obtain ⟨m₁, q, m₂, hl, hp, hl₁⟩ := map_prepend_split l l₁ l₂ p o nw heq
  subst hl₁
  rcases List.mem_map.mp hop with ⟨op', hop', rfl⟩
  subst hp
  exact OpDiv_prepend (h m₁ q o nw m₂ hl op' hop')

theorem vcSafe_append {A B : List Operation} (hA : vcSafe A) (hB : vcSafe B)
    (hcross : ∀ p o nw, .valueChanged p o nw ∈ B → ∀ op ∈ A, OpDiv p op) :
    vcSafe (A ++ B) := by
  intro l₁ p o nw l₂ heq op hop
  rcases List.append_eq_append_iff.mp heq with ⟨a', ha1, ha2⟩ | ⟨c', hc1, hc2⟩
  · -- l₁ = A ++ a', B = a' ++ vc :: l₂
    subst ha1
    rcases List.mem_append.mp hop with hmem | hmem
    · exact hcross p o nw
        (ha2 ▸ List.mem_append.mpr (Or.inr (List.mem_cons_self _ _))) op hmem
    · exact hB a' p o nw l₂ ha2 op hmem
  · -- A = l₁ ++ c', vc :: l₂ = c' ++ B
    cases c' with
    | nil =>
      simp only [List.nil_append] at hc2
      rw [List.append_nil] at hc1
      subst hc1
      exact hcross p o nw (hc2 ▸ List.mem_cons_self _ _) op hop
    | cons m c'' =>
      simp only [List.cons_append, List.cons.injEq] at hc2
      obtain ⟨hm, hrest⟩ := hc2
      exact hA l₁ p o nw c'' (by rw [hc1, ← hm]) op hop

theorem vcSafe_diffSeq :
    ∀ (xs ys : List CanonicalValue) (i : Nat),
      (∀ x y, x ∈ xs → y ∈ ys → vcSafe (diff false x y)) →
      vcSafe (diffSeq false i xs ys) := by
  intro xs
  induction xs with
  | nil =>
    intro ys i _
    exact vcSafe_of_no_vc (fun p o nw => diffSeq_right_novc ys i p o nw)
  | cons x xs ihx =>
    intro ys i hel
    cases ys with
    | nil =>
      exact vcSafe_of_no_vc (fun p o nw => diffSeq_left_novc (x :: xs) i p o nw)
    | cons y ys =>
      have hblock : diffSeq false i (x :: xs) (y :: ys) =
          (diff false x y).map (prependOp [.index i]) ++
            diffSeq false (i + 1) xs ys := by
        rw [diffSeq]
      rw [hblock]
      refine vcSafe_append
        (vcSafe_map_prepend (hel x y (by simp) (by simp)))
        (ihx ys (i + 1) (fun x' y' hx hy => hel x' y' (by simp [hx]) (by simp [hy])))
        ?_
      intro p o nw hvc op hop
      obtain ⟨j, q, hpath, hij⟩ := diffSeq_path_head xs ys (i + 1) _ hvc
      simp only [opPath] at hpath
      subst hpath
      rcases List.mem_map.mp hop with ⟨op', hop', rfl⟩
      have hsh := diff_shaped hop'
      have hnc := diff_false_noCount hop'
      cases op' with
      | valueChanged q' o' n' => exact DivSafe.idxDiv (by omega) (Or.inl rfl)
      | itemAdded q' v' c' =>
        have hc : c' = none := hnc
        exact DivSafe.idxDiv (by omega) (Or.inr (hsh hc))
      | itemRemoved q' v' c' =>
        have hc : c' = none := hnc
        exact DivSafe.idxDiv (by omega) (Or.inr (hsh hc))

theorem vcSafe_diffRecA (fb : List (String × CanonicalValue)) :
    ∀ (todo : List (String × CanonicalValue)),
      nodupKeys todo = true →
      (∀ k va vb, (k, va) ∈ todo → lookupKey fb k = some vb →
        vcSafe (diff false va vb)) →
      vcSafe (diffRecA false todo fb) := by
  intro todo
  induction todo with
  | nil =>
    intro _ _
    rw [diffRecA]
    exact vcSafe_of_no_vc (by simp)
  | cons e rest ih =>
    obtain ⟨k, va⟩ := e
    intro hnd hel
    simp only [nodupKeys, Bool.and_eq_true, Bool.not_eq_true'] at hnd
    obtain ⟨hkrest, hndrest⟩ := hnd
    have hcross : ∀ p o nw, .valueChanged p o nw ∈ diffRecA false rest fb →
        ∀ op ∈ (match lookupKey fb k with
          | some vb => (diff false va vb).map (prependOp [.key k])
          | none => ([.itemRemoved [.key k] va none] : List Operation)),
          OpDiv p op := by
      intro p o nw hvc op hop
      obtain ⟨k2, q, hpath, hk2⟩ := diffRecA_path_head fb rest _ hvc
      simp only [opPath] at hpath
      subst hpath
      have hne : k2 ≠ k := by
        intro hkk
        subst hkk
        rw [hk2] at hkrest
        simp at hkrest
      cases hvb : lookupKey fb k with
      | some vb =>
        rw [hvb] at hop
        simp only at hop
        rcases List.mem_map.mp hop with ⟨op', _, rfl⟩
        cases op' with
        | valueChanged q' o' n' => exact DivSafe.keyDiv hne
        | itemAdded q' v' c' => exact DivSafe.keyDiv hne
        | itemRemoved q' v' c' => exact DivSafe.keyDiv hne
      | none =>
        rw [hvb] at hop
        simp only [List.mem_singleton] at hop
        subst hop
        exact DivSafe.keyDiv hne
    cases hvb : lookupKey fb k with
    | some vb =>
      have hblock : diffRecA false ((k, va) :: rest) fb =
          (diff false va vb).map (prependOp [.key k]) ++
            diffRecA false rest fb := by
        rw [diffRecA, hvb]
      rw [hblock]
      refine vcSafe_append
        (vcSafe_map_prepend (hel k va vb (by simp) hvb))
        (ih hndrest
          (fun k' va' vb' hm hv => hel k' va' vb' (by simp [hm]) hv))
        ?_
      intro p o nw hvc op hop
      have := hcross p o nw hvc
      rw [hvb] at this
      exact this op hop
    | none =>
      have hblock : diffRecA false ((k, va) :: rest) fb =
          [.itemRemoved [.key k] va none] ++ diffRecA false rest fb := by
        rw [diffRecA, hvb]
      rw [hblock]
      refine vcSafe_append (vcSafe_singleton _)
        (ih hndrest
          (fun k' va' vb' hm hv => hel k' va' vb' (by simp [hm]) hv))
        ?_
      intro p o nw hvc op hop
      have := hcross p o nw hvc
      rw [hvb] at this
      exact this op hop

theorem vcSafe_diff_aux (n : Nat) :
    ∀ a b, sizeOf a + sizeOf b ≤ n → WFv a = true → WFv b = true →
      vcSafe (diff false a b) := by
  induction n with
  | zero => intro a b h; cases a <;> simp at h
  | succ n ih =>
    intro a b hsz hwa hwb
    cases a with
    | scalar s =>
      cases b with
      | scalar t =>
        by_cases hst : s = t
        · have hd : diff false (.scalar s) (.scalar t) = [] := by
            rw [diff]
            simp [hst]
          rw [hd]
          exact vcSafe_of_no_vc (by simp)
        · have hd : diff false (.scalar s) (.scalar t) =
              [.valueChanged [] (.scalar s) (.scalar t)] := by
            rw [diff]
            simp [hst]
          rw [hd]
          exact vcSafe_singleton _
      | sequence ys =>
        have hd : diff false (.scalar s) (.sequence ys) =
            [.valueChanged [] (.scalar s) (.sequence ys)] := by
          simp only [diff]
        rw [hd]
        exact vcSafe_singleton _
      | record fb =>
        have hd : diff false (.scalar s) (.record fb) =
            [.valueChanged [] (.scalar s) (.record fb)] := by
          simp only [diff]
        rw [hd]
        exact vcSafe_singleton _
    | sequence xs =>
      cases b with
      | scalar t =>
        have hd : diff false (.sequence xs) (.scalar t) =
            [.valueChanged [] (.sequence xs) (.scalar t)] := by
          simp only [diff]
        rw [hd]
        exact vcSafe_singleton _
      | sequence ys =>
        have hd : diff false (.sequence xs) (.sequence ys) =
            diffSeq false 0 xs ys := by
          rw [diff]
          simp
        rw [hd]
        refine vcSafe_diffSeq xs ys 0 ?_
        intro x y hx hy
        refine ih x y ?_ (WFlist_mem (by rw [WFv] at hwa; exact hwa) hx)
          (WFlist_mem (by rw [WFv] at hwb; exact hwb) hy)
        have h1 := List.sizeOf_lt_of_mem hx
        have h2 := List.sizeOf_lt_of_mem hy
        simp at hsz
        omega
      | record fb =>
        have hd : diff false (.sequence xs) (.record fb) =
            [.valueChanged [] (.sequence xs) (.record fb)] := by
          simp only [diff]
        rw [hd]
        exact vcSafe_singleton _
    | record fa =>
      cases b with
      | scalar t =>
        have hd : diff false (.record fa) (.scalar t) =
            [.valueChanged [] (.record fa) (.scalar t)] := by
          simp only [diff]
        rw [hd]
        exact vcSafe_singleton _
      | sequence ys =>
        have hd : diff false (.record fa) (.sequence ys) =
            [.valueChanged [] (.record fa) (.sequence ys)] := by
          simp only [diff]
        rw [hd]
        exact vcSafe_singleton _
      | record fb =>
        have hd : diff false (.record fa) (.record fb) =
            diffRecA false fa fb ++ diffRecAdded fa fb := by
          rw [diff]
        rw [hd]
        refine vcSafe_append ?_ (vcSafe_of_no_vc ?_) ?_
        · refine vcSafe_diffRecA fb fa (WF_record_nodup hwa) ?_
          intro k va vb hm hv
          refine ih va vb ?_ (WFfields_mem (WF_record_fields hwa) hm)
            (WFfields_mem (WF_record_fields hwb) (mem_of_lookupKey hv))
          have h1 := List.sizeOf_lt_of_mem hm
          have h2 := lookupKey_sizeOf fb k vb hv
          simp at hsz h1
          omega
        · intro p o nw
          exact diffRecAdded_novc
        · intro p o nw hvc
          exact absurd hvc diffRecAdded_novc

theorem fold_error_of_div {p : Path} {o nw w : CanonicalValue} (hne : w ≠ o) :
    ∀ (l₁ l₂ : List Operation) (c : CanonicalValue),
      (∀ op ∈ l₁, OpDiv p op) → (∀ op ∈ l₁, opNoCount op) →
      getAt c p = some w →
      ∃ e, (l₁ ++ .valueChanged p o nw :: l₂).foldlM applyOp c = .error e := by
  intro l₁
  induction l₁ with
  | nil =>
    intro l₂ c _ _ hg
    obtain ⟨e, he⟩ := replaceAt_error_of_ne hne p c nw hg
    refine ⟨e, ?_⟩
    simp only [List.nil_append, List.foldlM_cons, applyOp, he, Bind.bind,
      Except.bind]
  | cons op l₁ ih =>
    intro l₂ c hdiv hnc hg
    rw [List.cons_append, List.foldlM_cons]
    cases hac : applyOp c op with
    | error e =>
      exact ⟨e, by simp [Bind.bind, Except.bind]⟩
    | ok c₁ =>
      have hg1 : getAt c₁ p = some w := by
        rw [applyOp_getAt_div (hdiv op (by simp)) (hnc op (by simp)) c c₁ hac]
        exact hg
      obtain ⟨e, he⟩ := ih l₂ c₁
        (fun op' h => hdiv op' (by simp [h]))
        (fun op' h => hnc op' (by simp [h])) hg1
      refine ⟨e, ?_⟩
      simp only [Bind.bind, Except.bind]
      exact he

/-- C4 (amended): divergence at a changed path is never silently accepted.
If `diff(A, B)` records a `valueChanged` at path `p` and the target snapshot
`C` holds a value `w ≠ old` at `p`, then `apply` fails with an error (which
the counterexample shows can be `pathError` rather than the claimed
`ConflictError`).  Atomicity holds by construction: a failing `apply` returns
only the error — no partially patched tree is ever returned, and the caller's
snapshot `C` is a value the call cannot mutate. -/
theorem c4_conflict_detection (a b c : CanonicalValue) (p : Path)
    (o nw w : CanonicalValue) (ha : WFv a = true) (hb : WFv b = true)
    (hmem : .valueChanged p o nw ∈ diff false a b)
    (hw : getAt c p = some w) (hne : w ≠ o) :
    ∃ e, Delta.apply ⟨diff false a b⟩ c = .error e := by
  obtain ⟨l₁, l₂, hsplit⟩ := List.append_of_mem hmem
  have hsafe := vcSafe_diff_aux (sizeOf a + sizeOf b) a b (Nat.le_refl _) ha hb
  have hdiv := hsafe l₁ p o nw l₂ hsplit
  have hnc : ∀ op ∈ l₁, opNoCount op := by
    intro op hop
    have hmem2 : op ∈ diff false a b := by
      rw [hsplit]
      exact List.mem_append.mpr (Or.inl hop)
    exact diff_false_noCount hmem2
  obtain ⟨e, he⟩ := fold_error_of_div hne l₁ l₂ c hdiv hnc hw
  refine ⟨e, ?_⟩
  show (diff false a b).foldlM applyOp c = .error e
  rw [hsplit]
  exact he

/-- Snapshot A of the conflict counterexample: `{x: 1, y: 1}`. -/
def cexA : CanonicalValue :=
  .record [("x", .scalar (.int 1)), ("y", .scalar (.int 1))]

/-- Snapshot B of the conflict counterexample: `{x: 2, y: 2}`. -/
def cexB : CanonicalValue :=
  .record [("x", .scalar (.int 2)), ("y", .scalar (.int 2))]

/-- Divergent target C of the conflict counterexample: `{y: 9}` — it holds a
divergent value at the changed path `y` (and lacks the changed path `x`). -/
def cexC : CanonicalValue :=
  .record [("y", .scalar (.int 9))]

theorem cex_diff_eq :
    diff false cexA cexB =
      [.valueChanged [.key "x"] (.scalar (.int 1)) (.scalar (.int 2)),
       .valueChanged [.key "y"] (.scalar (.int 1)) (.scalar (.int 2))] := by
  simp [cexA, cexB, diff, diffRecA, diffRecAdded, lookupKey, hasKey,
    prependOp]

/-- C4 counterexample: applying the ChangeSet computed from `(cexA, cexB)` to
the target `cexC` — which diverges from `cexA` at the changed path `y`
(holding 9 instead of the recorded old value 1) — fails with `pathError`, not
the `ConflictError` the claim promises (the first operation's path `x` does
not exist in `cexC`, and navigation fails before any old-value check). -/
theorem c4_conflict_counterexample :
    getAt cexC [.key "y"] = some (.scalar (.int 9)) ∧
    getAt cexA [.key "y"] = some (.scalar (.int 1)) ∧
    (Operation.valueChanged [.key "y"] (.scalar (.int 1)) (.scalar (.int 2)))
      ∈ diff false cexA cexB ∧
    Delta.apply ⟨diff false cexA cexB⟩ cexC = .error .pathError ∧
    Delta.apply ⟨diff false cexA cexB⟩ cexC ≠ .error .conflict := by
  refine ⟨by decide, by decide, ?_, ?_, ?_⟩
  · rw [cex_diff_eq]
    simp
  · rw [show Delta.apply ⟨diff false cexA cexB⟩ cexC =
        (diff false cexA cexB).foldlM applyOp cexC from rfl, cex_diff_eq]
    decide
  · rw [show Delta.apply ⟨diff false cexA cexB⟩ cexC =
        (diff false cexA cexB).foldlM applyOp cexC from rfl, cex_diff_eq]
    decide

/-- Witness for the amended C4 theorem at the counterexample snapshots. -/
theorem c4_conflict_detection_witness :
    ∃ e, Delta.apply ⟨diff false cexA cexB⟩ cexC = .error e :=
  c4_conflict_detection cexA cexB cexC [.key "y"] (.scalar (.int 1))
    (.scalar (.int 2)) (.scalar (.int 9)) (by decide) (by decide)
    (by rw [cex_diff_eq]; simp) (by decide) (by decide)

end DiffEngine
